import Mathlib

/-!
Verification development for a sparse-matrix kernel (CSR/CSC compressed
storage, elementwise binary operations, storage conversion, symmetry check).

The definitions below are a shallow embedding of the Rust sources:
  * `src/sparse/csmat.rs`    — the `CsMat` type, validation, views, conversion
  * `src/sparse/binop.rs`    — elementwise sparse-sparse and sparse-dense ops
  * `src/sparse/symmetric.rs`— the symmetry predicate

Machine integers (`usize`) are modelled as `Nat`; the single place where the
bit width matters (`check_compressed_structure`'s guard
`max_indptr > usize::max_value() / 2`) uses an explicit constant `usizeMax`.
Rust slices/`Vec`s are modelled as `List`s; in-place mutation is modelled by
returning the updated value.  Fallible functions return `Except SprsError`.
Rust `panic!`/`assert!`/`unwrap()` situations are noted at each definition;
where a panic is statically unreachable the embedding returns the value the
non-panicking execution computes, and a theorem establishes the
unreachability.

The numeric scalar type is a commutative ring with decidable equality,
matching the `Num + Copy + PartialEq` bounds used by the sources (zero/one,
ring operations, equality used only to prune exact zeros).
-/

set_option maxHeartbeats 1000000

/-- Error type of the library.  The file `errors.rs` is not among the sources;
the variants are exactly those the three source files construct or test for. -/
inductive SprsError where
  | BadIndptrLength
  | DataIndicesMismatch
  | BadNnzCount
  | OutOfBoundsIndptr
  | UnsortedIndptr
  | NonSortedIndices
  | OutOfBoundsIndex
  | EmptyBlock
  | IncompatibleDimensions
  | IncompatibleStorages
  deriving DecidableEq, Repr

/-- Storage order of a compressed matrix (`CompressedStorage` in csmat.rs). -/
inductive CompressedStorage where
  | CSR
  | CSC
  deriving DecidableEq, Repr

/-- Return CSC if we were CSR, and vice versa (csmat.rs `other_storage`). -/
def CompressedStorage.other_storage : CompressedStorage → CompressedStorage
  | .CSR => .CSC
  | .CSC => .CSR

/-- Largest value of `usize` on the (64-bit) target modelled here. -/
def usizeMax : Nat := 2 ^ 64 - 1

/-- Sparse vector with parallel index/value lists.  The file `vec.rs` is not
among the sources; this type is the interface its callers in csmat.rs,
binop.rs and symmetric.rs rely on. -/
structure CsVec (α : Type) where
  dim : Nat
  indices : List Nat
  data : List α
  deriving DecidableEq, Repr

/-- Iteration over a sparse vector yields the (index, value) pairs in storage
order (zip of the parallel lists). -/
def CsVec.toPairs (v : CsVec α) : List (Nat × α) :=
  v.indices.zip v.data

/-- Adjacent-pairs check `l.windows(2).all(|x| x[0] <= x[1])` used on the
offsets array. -/
def boolSortedLe : List Nat → Bool
  | a :: b :: rest => a.ble b && boolSortedLe (b :: rest)
  | _ => true

/-- Adjacent-pairs strict sortedness check for the index list of one sparse
vector. -/
def boolSortedLt : List Nat → Bool
  | a :: b :: rest => a.blt b && boolSortedLt (b :: rest)
  | _ => true

/-- Modelled from the spec: `CsVec::check_structure` (vec.rs is missing from
the sources).  Spec §3: a sparse vector's index list is strictly increasing
(sorted, unique) and every index is below the vector dimension; the tests in
csmat.rs show the two failures surface as `NonSortedIndices` and
`OutOfBoundsIndex` respectively. -/
def CsVec.check_structure (v : CsVec α) : Except SprsError Unit :=
  if ! boolSortedLt v.indices then .error .NonSortedIndices
  else if ! v.indices.all (fun i => i.blt v.dim) then .error .OutOfBoundsIndex
  else .ok ()

/-- Modelled from the spec: `CsVec::at` (vec.rs is missing from the sources).
Spec §4.1: random access performs a binary search in the sorted index list and
returns the found value or "absent"; on the sorted-unique lists the structure
guarantees, this is association-list lookup. -/
def CsVec.atIndex (v : CsVec α) (j : Nat) : Option α :=
  List.lookup j v.toPairs

/-- Compressed matrix in the CSR or CSC format (csmat.rs `CsMat`).  Owned and
borrowed variants share this model since borrowing is not observable here. -/
structure CsMat (α : Type) where
  storage : CompressedStorage
  nrows : Nat
  ncols : Nat
  nnz : Nat
  indptr : List Nat
  indices : List Nat
  data : List α
  deriving DecidableEq, Repr

/-- Number of rows (csmat.rs `rows`). -/
def CsMat.rows (m : CsMat α) : Nat := m.nrows

/-- Number of cols (csmat.rs `cols`). -/
def CsMat.cols (m : CsMat α) : Nat := m.ncols

/-- Number of stored non-zero entries (csmat.rs `nb_nonzero`). -/
def CsMat.nb_nonzero (m : CsMat α) : Nat := m.nnz

/-- Number of outer dimensions: rows for CSR, cols for CSC. -/
def CsMat.outer_dims (m : CsMat α) : Nat :=
  match m.storage with
  | .CSR => m.nrows
  | .CSC => m.ncols

/-- Number of inner dimensions: cols for CSR, rows for CSC. -/
def CsMat.inner_dims (m : CsMat α) : Nat :=
  match m.storage with
  | .CSC => m.nrows
  | .CSR => m.ncols

/-- Indices slice of the i-th outer dimension: `indices[indptr[i]..indptr[i+1]]`.
Rust would panic on an out-of-range slice; `drop`/`take` are total, and every
use below is guarded by the structure checks that make the ranges in-bounds. -/
def CsMat.sliceIndices (m : CsMat α) (i : Nat) : List Nat :=
  (m.indices.drop (m.indptr.getD i 0)).take (m.indptr.getD (i+1) 0 - m.indptr.getD i 0)

/-- Data slice of the i-th outer dimension: `data[indptr[i]..indptr[i+1]]`. -/
def CsMat.sliceData (m : CsMat α) (i : Nat) : List α :=
  (m.data.drop (m.indptr.getD i 0)).take (m.indptr.getD (i+1) 0 - m.indptr.getD i 0)

/-- Sparse-vector view of the i-th outer dimension, as produced by the outer
iterator (csmat.rs `OuterIterator::next`). -/
def CsMat.outerVec (m : CsMat α) (i : Nat) : CsVec α :=
  { dim := m.inner_dims, indices := m.sliceIndices i, data := m.sliceData i }

/-- The (index, value) pairs of the i-th outer slice. -/
def CsMat.sliceZip (m : CsMat α) (i : Nat) : List (Nat × α) :=
  (m.sliceIndices i).zip (m.sliceData i)

/-- Outer iteration (csmat.rs `outer_iterator`): walks `indptr.windows(2)`,
yielding one sparse-vector view per adjacent offset pair.  The number of
items is `indptr.length - 1`. -/
def CsMat.outerSlices (m : CsMat α) : List (CsVec α) :=
  (List.range (m.indptr.length - 1)).map m.outerVec

/-- Sequentially check a list of outer-slice vectors, propagating the first
error (the `try!` loop at the end of `check_compressed_structure`). -/
def checkVecList : List (CsVec α) → Except SprsError Unit
  | [] => .ok ()
  | v :: vs =>
    match v.check_structure with
    | .ok () => checkVecList vs
    | .error e => .error e

/-- Check the structure of CsMat components
(csmat.rs `check_compressed_structure`).  The `unreachable!()` branch for an
empty `indptr` cannot run because the length test has already passed; the
`max` of the nonempty `indptr` is modelled by `foldr max 0`. -/
def CsMat.check_compressed_structure (m : CsMat α) : Except SprsError Unit :=
  if m.indptr.length != m.outer_dims + 1 then .error .BadIndptrLength
  else if m.indices.length != m.data.length then .error .DataIndicesMismatch
  else if m.indices.length != m.nnz then .error .BadNnzCount
  else if (m.indices.length).blt (m.indptr.foldr max 0) then
    .error .OutOfBoundsIndptr
  else if (usizeMax / 2).blt (m.indptr.foldr max 0) then
    .error .OutOfBoundsIndptr
  else if ! boolSortedLe m.indptr then .error .UnsortedIndptr
  else checkVecList m.outerSlices

/-- Create an owned CsMat matrix from moved data, checking their validity
(csmat.rs `new_owned`).  Note `nnz` is set to `data.len()` before the check
runs. -/
def CsMat.new_owned (storage : CompressedStorage) (nrows ncols : Nat)
    (indptr indices : List Nat) (data : List α) : Except SprsError (CsMat α) :=
  let m : CsMat α :=
    { storage := storage, nrows := nrows, ncols := ncols, nnz := data.length,
      indptr := indptr, indices := indices, data := data }
  match m.check_compressed_structure with
  | .ok () => .ok m
  | .error e => .error e

/-- Identity matrix (csmat.rs `eye`). -/
def CsMat.eye (α : Type) [One α] (storage : CompressedStorage) (dim : Nat) :
    CsMat α :=
  { storage := storage, nrows := dim, ncols := dim, nnz := dim,
    indptr := List.range (dim + 1), indices := List.range dim,
    data := List.replicate dim 1 }

/-- The zero matrix (csmat.rs `zero`). -/
def CsMat.zeroMat (α : Type) (rows cols : Nat) : CsMat α :=
  { storage := .CSR, nrows := rows, ncols := cols, nnz := 0,
    indptr := List.replicate (rows + 1) 0, indices := [], data := [] }

/-- Transpose a matrix in place (csmat.rs `transpose_mut`): swap the row and
column counts and flip the storage-order label; no array is touched. -/
def CsMat.transpose_mut (m : CsMat α) : CsMat α :=
  { m with nrows := m.ncols, ncols := m.nrows,
           storage := m.storage.other_storage }

/-- Get a view into the i-th outer dimension (csmat.rs `outer_view`). -/
def CsMat.outer_view (m : CsMat α) (i : Nat) : Option (CsVec α) :=
  if i ≥ m.outer_dims then none
  else some (m.outerVec i)

/-- Access an element given its outer and inner index
(csmat.rs `at_outer_inner`). -/
def CsMat.at_outer_inner (m : CsMat α) (outer_ind inner_ind : Nat) : Option α :=
  (m.outer_view outer_ind).bind (fun vec => vec.atIndex inner_ind)

/-- Access the element at row i, column j (csmat.rs `at`).  The function
asserts both indices in range and panics otherwise; the panic is modelled by
the outer `none`, a normal return by `some` of the looked-up value. -/
def CsMat.atRC (m : CsMat α) (i j : Nat) : Option (Option α) :=
  if i < m.nrows then
    if j < m.ncols then
      match m.storage with
      | .CSR => some (m.at_outer_inner i j)
      | .CSC => some (m.at_outer_inner j i)
    else none
  else none

/-- Sparse matrix self-multiplication by a scalar (csmat.rs `scale`):
every stored value is multiplied in place, nothing else changes. -/
def CsMat.scale [Mul α] (m : CsMat α) (val : α) : CsMat α :=
  { m with data := m.data.map (· * val) }

/-- Get a view into `count` contiguous outer dimensions, starting from `i`
(csmat.rs `middle_outer_views`).  The Rust `indptr[iend]`/`indptr[i]` reads
are modelled with `getD` (they are in bounds whenever the structure check has
passed, since then `indptr.length = outer_dims + 1 ≥ iend + 1`). -/
def CsMat.middle_outer_views (m : CsMat α) (i count : Nat) :
    Except SprsError (CsMat α) :=
  if count = 0 then .error .EmptyBlock
  else
    let iend := i + count
    if i ≥ m.outer_dims ∨ iend > m.outer_dims then .error .OutOfBoundsIndex
    else .ok { storage := m.storage, nrows := count, ncols := m.cols,
               nnz := m.indptr.getD iend 0 - m.indptr.getD i 0,
               indptr := (m.indptr.drop i).take (iend + 1 - i),
               indices := m.indices, data := m.data }

/-- Iterator state over non-overlapping blocks of outer dimensions
(csmat.rs `ChunkOuterBlocks`). -/
structure ChunkOuterBlocks (α : Type) where
  mat : CsMat α
  dims_in_bloc : Nat
  bloc_count : Nat

/-- One step of block iteration (csmat.rs `impl Iterator for ChunkOuterBlocks`).
Mutation of the iterator is modelled by returning the successor state.  The
`.unwrap()` on `middle_outer_views` is modelled by `none` in the error case;
it is reachable only when the matrix has an empty outer dimension. -/
def ChunkOuterBlocks.next (s : ChunkOuterBlocks α) :
    Option (CsMat α × ChunkOuterBlocks α) :=
  let cur_dim := s.dims_in_bloc * s.bloc_count
  let end_dim := s.dims_in_bloc + cur_dim
  if s.dims_in_bloc = 0 then none
  else
    let (count, dims') :=
      if end_dim > s.mat.outer_dims then (s.mat.outer_dims - cur_dim, 0)
      else (s.dims_in_bloc, s.dims_in_bloc)
    match s.mat.middle_outer_views cur_dim count with
    | .ok view =>
      some (view, { s with dims_in_bloc := dims', bloc_count := s.bloc_count + 1 })
    | .error _ => none

/-- Iteration on outer blocks of size `block_size` (csmat.rs
`outer_block_iter`). -/
def CsMat.outer_block_iter (m : CsMat α) (block_size : Nat) :
    ChunkOuterBlocks α :=
  { mat := m, dims_in_bloc := block_size, bloc_count := 0 }

/-- Symmetry predicate (symmetric.rs `is_symmetric`): non-square matrices are
asymmetric; otherwise every stored entry must have a stored mirror with an
equal value.  `List.all` mirrors the short-circuiting `return false`. -/
def is_symmetric [DecidableEq α] (m : CsMat α) : Bool :=
  if m.rows ≠ m.cols then false
  else
    (List.range (m.indptr.length - 1)).all (fun outer_ind =>
      (m.sliceZip outer_ind).all (fun p =>
        match m.at_outer_inner p.1 outer_ind with
        | none => false
        | some transposed_val => decide (transposed_val = p.2)))

/-- Overwrite the first `src.length` positions of `out` with `src`, keeping
any remaining positions of `out`.  This is the effect of the Rust idiom
`for (o, s) in out.iter_mut().zip(src) { *o = *s; }`. -/
def zipOverwrite (out src : List β) : List β :=
  List.zipWith (fun _ s => s) out src ++ out.drop src.length

/-- Sparse matrix multiplication by a scalar, raw version (binop.rs
`scalar_mul_mat_raw`): copy `indptr` and `indices` into the outputs and write
each value times `val` into the data output.  The length assertions of the
Rust code hold at the only call site (`scalar_mul_mat`). -/
def scalar_mul_mat_raw [Mul α] (mat : CsMat α) (val : α)
    (out_indptr out_indices : List Nat) (out_data : List α) :
    List Nat × List Nat × List α :=
  (zipOverwrite out_indptr mat.indptr,
   zipOverwrite out_indices mat.indices,
   List.zipWith (fun _ s => s * val) out_data mat.data ++
     out_data.drop mat.data.length)

/-- Sparse matrix multiplication by a scalar (binop.rs `scalar_mul_mat`).
The final `new_owned(..).unwrap()` is modelled by returning the constructed
matrix directly; the structure check is proved to succeed on it (C9), so the
panic branch is unreachable. -/
def scalar_mul_mat [Mul α] [Zero α] (mat : CsMat α) (val : α) : CsMat α :=
  let out := scalar_mul_mat_raw mat val
      (List.replicate (mat.outer_dims + 1) 0)
      (List.replicate mat.nb_nonzero 0)
      (List.replicate mat.nb_nonzero (0 : α))
  { storage := mat.storage, nrows := mat.rows, ncols := mat.cols,
    nnz := out.2.2.length, indptr := out.1, indices := out.2.1,
    data := out.2.2 }

/-! Helper lemmas about `zipOverwrite`. -/

theorem zipWith_const_snd_eq_map (g : γ → β) (out : List β) (src : List γ)
    (h : src.length ≤ out.length) :
    List.zipWith (fun _ s => g s) out src = src.map g := by
  induction src generalizing out with
  | nil => simp
  | cons s src ih =>
    cases out with
    | nil => simp at h
    | cons o out =>
      simp only [List.zipWith, List.map]
      exact congrArg _ (ih out (by simpa using h))

theorem zipOverwrite_eq_src (out : List β) (src : List β)
    (h : out.length = src.length) : zipOverwrite out src = src := by
  unfold zipOverwrite
  have h1 : List.zipWith (fun _ s => s) out src = src.map id :=
    zipWith_const_snd_eq_map id out src (le_of_eq h.symm)
  rw [h1, List.map_id, List.drop_eq_nil_of_le (le_of_eq h), List.append_nil]

/-- C7: in-place transposition swaps the row and column counts and flips the
storage-order label while leaving nnz and the offsets, indices and values
arrays completely unchanged; applying it twice restores the matrix exactly. -/
theorem transpose_mut_frame (m : CsMat α) :
    m.transpose_mut.nrows = m.ncols ∧ m.transpose_mut.ncols = m.nrows ∧
    m.transpose_mut.storage = m.storage.other_storage ∧
    m.transpose_mut.nnz = m.nnz ∧ m.transpose_mut.indptr = m.indptr ∧
    m.transpose_mut.indices = m.indices ∧ m.transpose_mut.data = m.data ∧
    m.transpose_mut.transpose_mut = m := by
  refine ⟨rfl, rfl, rfl, rfl, rfl, rfl, rfl, ?_⟩
  cases m with
  | mk storage nrows ncols nnz indptr indices data => cases storage <;> rfl

/-- C6: scalar scaling — both the in-place `scale` and the
`scalar_mul_mat` path — multiplies every stored value by the scalar while
leaving storage order, row and column counts, nnz, offsets and indices
unchanged, and prunes nothing (the data length is preserved). -/
theorem scale_and_scalar_mul_frame [Mul α] [Zero α] (m : CsMat α) (c : α)
    (hip : m.indptr.length = m.outer_dims + 1)
    (hind : m.indices.length = m.nnz)
    (hdat : m.data.length = m.nnz) :
    ((m.scale c).storage = m.storage ∧ (m.scale c).nrows = m.nrows ∧
     (m.scale c).ncols = m.ncols ∧ (m.scale c).nnz = m.nnz ∧
     (m.scale c).indptr = m.indptr ∧ (m.scale c).indices = m.indices ∧
     (m.scale c).data = m.data.map (· * c) ∧
     (m.scale c).data.length = m.data.length) ∧
    ((scalar_mul_mat m c).storage = m.storage ∧
     (scalar_mul_mat m c).nrows = m.nrows ∧
     (scalar_mul_mat m c).ncols = m.ncols ∧
     (scalar_mul_mat m c).nnz = m.nnz ∧
     (scalar_mul_mat m c).indptr = m.indptr ∧
     (scalar_mul_mat m c).indices = m.indices ∧
     (scalar_mul_mat m c).data = m.data.map (· * c)) := by
  constructor
  · exact ⟨rfl, rfl, rfl, rfl, rfl, rfl, rfl, by simp [CsMat.scale]⟩
  · have hdata' :
        List.zipWith (fun _ s => s * c) (List.replicate m.nb_nonzero (0 : α))
            m.data ++
          (List.replicate m.nb_nonzero (0 : α)).drop m.data.length =
          m.data.map (· * c) := by
      rw [zipWith_const_snd_eq_map (· * c) _ _ (by simp [CsMat.nb_nonzero, hdat]),
          List.drop_eq_nil_of_le (by simp [CsMat.nb_nonzero, hdat]),
          List.append_nil]
    have hiptr :
        zipOverwrite (List.replicate (m.outer_dims + 1) 0) m.indptr =
          m.indptr :=
      zipOverwrite_eq_src _ _ (by simp [hip])
    have hidx :
        zipOverwrite (List.replicate m.nb_nonzero 0) m.indices = m.indices :=
      zipOverwrite_eq_src _ _ (by simp [CsMat.nb_nonzero, hind])
    refine ⟨rfl, rfl, rfl, ?_, ?_, ?_, ?_⟩
    · simp only [scalar_mul_mat, scalar_mul_mat_raw, hdata']
      simp [hdat]
    · simp only [scalar_mul_mat, scalar_mul_mat_raw, hiptr]
    · simp only [scalar_mul_mat, scalar_mul_mat_raw, hidx]
    · simp only [scalar_mul_mat, scalar_mul_mat_raw, hdata']

/-- Witness for C6 at a concrete matrix (the 2×2 identity over ℤ, scaled
by 3). -/
theorem scale_and_scalar_mul_frame_witness :
    ((CsMat.eye Int .CSR 2).scale 3).data = [3, 3] ∧
    (scalar_mul_mat (CsMat.eye Int .CSR 2) 3).indptr = [0, 1, 2] ∧
    (scalar_mul_mat (CsMat.eye Int .CSR 2) 3).data = [3, 3] := by
  obtain ⟨h1, h2⟩ :=
    scale_and_scalar_mul_frame (CsMat.eye Int .CSR 2) 3 (by decide) (by decide)
      (by decide)
  refine ⟨?_, ?_, ?_⟩
  · rw [h1.2.2.2.2.2.2.1]; rfl
  · rw [h2.2.2.2.2.1]; rfl
  · rw [h2.2.2.2.2.2.2]; rfl

/-- C10: random element access asserts both indices in range (modelled by the
outer `none` = panic); the "absent" outcome `some none` can only arise for
in-range positions whose outer/inner lookup finds no stored entry. -/
theorem atRC_asserts (m : CsMat α) (i j : Nat) :
    (¬ (i < m.nrows ∧ j < m.ncols) → m.atRC i j = none) ∧
    (m.atRC i j = some none →
      i < m.nrows ∧ j < m.ncols ∧
      (match m.storage with
       | .CSR => m.at_outer_inner i j
       | .CSC => m.at_outer_inner j i) = none) := by
  constructor
  · intro h
    unfold CsMat.atRC
    by_cases h1 : i < m.nrows
    · have h2 : ¬ j < m.ncols := fun h2 => h ⟨h1, h2⟩
      simp [h1, h2]
    · simp [h1]
  · intro h
    unfold CsMat.atRC at h
    by_cases h1 : i < m.nrows
    · by_cases h2 : j < m.ncols
      · refine ⟨h1, h2, ?_⟩
        simp only [h1, h2, if_pos] at h
        cases hs : m.storage <;> simp [hs] at h ⊢ <;> exact h
      · simp [h1, h2] at h
    · simp [h1] at h

/-- Witness for C10: out-of-range access on the 1×1 identity panics; the 1×1
zero matrix reports absence at the in-range position (0,0). -/
theorem atRC_asserts_witness :
    (CsMat.eye Int .CSR 1).atRC 2 0 = none ∧
    (0 < 1 ∧ 0 < 1 ∧
      (match (CsMat.zeroMat Int 1 1).storage with
       | .CSR => (CsMat.zeroMat Int 1 1).at_outer_inner 0 0
       | .CSC => (CsMat.zeroMat Int 1 1).at_outer_inner 0 0) = none) := by
  constructor
  · exact (atRC_asserts (CsMat.eye Int .CSR 1) 2 0).1 (by decide)
  · exact (atRC_asserts (CsMat.zeroMat Int 1 1) 0 0).2 (by decide)

/-- C8: the symmetry checker returns false for every non-square matrix; for a
square matrix it returns true exactly when every stored entry at
(outer, inner) has a stored mirror at (inner, outer) with exactly equal
value. -/
theorem is_symmetric_spec [DecidableEq α] (m : CsMat α) :
    (m.rows ≠ m.cols → is_symmetric m = false) ∧
    (m.rows = m.cols →
      (is_symmetric m = true ↔
        ∀ o < m.indptr.length - 1, ∀ p ∈ m.sliceZip o,
          m.at_outer_inner p.1 o = some p.2)) := by
  constructor
  · intro h
    simp [is_symmetric, h]
  · intro h
    rw [is_symmetric, if_neg (by simp [h]), List.all_eq_true]
    constructor
    · intro hall o ho p hp
      have h2 := hall o (List.mem_range.mpr ho)
      rw [List.all_eq_true] at h2
      have h3 := h2 p hp
      cases hlook : m.at_outer_inner p.1 o with
      | none => rw [hlook] at h3; simp at h3
      | some tv =>
        rw [hlook] at h3
        simp only [decide_eq_true_eq] at h3
        rw [h3]
    · intro hall o ho
      rw [List.all_eq_true]
      intro p hp
      have h3 := hall o (List.mem_range.mp ho) p hp
      rw [h3]
      simp

/-- Witness for C8: the 1×2 zero matrix is non-square hence asymmetric; the
2×2 identity is square and every entry has its mirror. -/
theorem is_symmetric_spec_witness :
    is_symmetric (CsMat.zeroMat Int 1 2) = false ∧
    (∀ o < (CsMat.eye Int .CSR 2).indptr.length - 1,
      ∀ p ∈ (CsMat.eye Int .CSR 2).sliceZip o,
        (CsMat.eye Int .CSR 2).at_outer_inner p.1 o = some p.2) := by
  constructor
  · exact (is_symmetric_spec (CsMat.zeroMat Int 1 2)).1 (by decide)
  · exact ((is_symmetric_spec (CsMat.eye Int .CSR 2)).2 rfl).mp (by decide)

/-- C3 (code bug): the checked constructor ACCEPTS offsets `[0,1,2]` (outer
dimension 2) together with 3 stored entries, although its own documentation
says the check ensures `nnz == indptr[outer_dims()]` and the spec requires a
nnz-mismatch failure.  `new_owned` sets `nnz := data.len()`, so the
`BadNnzCount` comparison `indices.len() != self.nnz` can never fire, and no
check compares `indptr[outer_dims()]` with `nnz`: the third stored entry is
silently out of reach of every slice. -/
theorem new_owned_accepts_nnz_mismatch :
    CsMat.new_owned (α := Int) .CSR 2 3 [0, 1, 2] [0, 1, 2] [1, 1, 1] =
      .ok { storage := .CSR, nrows := 2, ncols := 3, nnz := 3,
            indptr := [0, 1, 2], indices := [0, 1, 2], data := [1, 1, 1] } := by
  rfl

/-- C4 (counterexample): block iteration with block size 0 does NOT fail with
`EmptyBlock` — the iterator's `next` immediately returns `None` (its item
type cannot even carry an error). -/
theorem outer_block_iter_zero_returns_none :
    ChunkOuterBlocks.next ((CsMat.eye Int .CSR 2).outer_block_iter 0) =
      none := by
  rfl

/-- C4 (amended): block iteration with block size 0 yields no blocks (`next`
returns `None`); a middle-outer-view request with extent 0 fails with
`EmptyBlock`; a middle-outer-view request with non-zero extent whose start is
not below the outer dimension, or whose start plus extent exceeds it, fails
with `OutOfBoundsIndex`. -/
theorem block_iteration_errors (m : CsMat α) (i count : Nat) :
    (ChunkOuterBlocks.next (m.outer_block_iter 0) = none) ∧
    (count = 0 → m.middle_outer_views i count = .error .EmptyBlock) ∧
    (count ≠ 0 → i ≥ m.outer_dims ∨ i + count > m.outer_dims →
      m.middle_outer_views i count = .error .OutOfBoundsIndex) := by
  refine ⟨rfl, ?_, ?_⟩
  · intro h
    rw [CsMat.middle_outer_views, if_pos h]
  · intro hc hob
    rw [CsMat.middle_outer_views, if_neg hc]
    simp only [ge_iff_le, if_pos hob]

/-- Witness for C4 applied to the 3×3 identity over ℤ. -/
theorem block_iteration_errors_witness :
    (ChunkOuterBlocks.next ((CsMat.eye Int .CSR 3).outer_block_iter 0) =
      none) ∧
    ((CsMat.eye Int .CSR 3).middle_outer_views 7 0 =
      .error .EmptyBlock) ∧
    ((CsMat.eye Int .CSR 3).middle_outer_views 2 2 =
      .error .OutOfBoundsIndex) := by
  refine ⟨(block_iteration_errors (CsMat.eye Int .CSR 3) 0 0).1,
    (block_iteration_errors (CsMat.eye Int .CSR 3) 7 0).2.1 rfl,
    (block_iteration_errors (CsMat.eye Int .CSR 3) 2 2).2.2 (by decide)
      (by decide)⟩

/-- Modelled from the spec (§4.3 Merge Iterator): the tagged elements
`NnzEither` produced by aligned traversal of two sparse vectors; vec.rs,
which hosts `NnzEither` and `nnz_or_zip`, is not among the sources.  In
binop.rs, `Left` holds an element present only in the receiver (left)
iterator and `Right` one present only in the argument. -/
inductive NnzEither (α : Type) where
  | Left (ind : Nat) (val : α)
  | Right (ind : Nat) (val : α)
  | Both (ind : Nat) (lval rval : α)
  deriving DecidableEq, Repr

/-- Index carried by a merge element. -/
def NnzEither.ind : NnzEither α → Nat
  | .Left i _ => i
  | .Right i _ => i
  | .Both i _ _ => i

/-- Modelled from the spec (§4.3): merge two sorted index/value sequences by
comparing head indices; the smaller index is emitted alone tagged to its
side, equal indices are emitted together, and exhausted sides drain the
other. -/
def nnz_or_zip : List (Nat × α) → List (Nat × α) → List (NnzEither α)
  | [], r => r.map (fun p => .Right p.1 p.2)
  | l, [] => l.map (fun p => .Left p.1 p.2)
  | (li, lv) :: ls, (ri, rv) :: rs =>
    if li < ri then .Left li lv :: nnz_or_zip ls ((ri, rv) :: rs)
    else if ri < li then .Right ri rv :: nnz_or_zip ((li, lv) :: ls) rs
    else .Both li lv rv :: nnz_or_zip ls rs
  termination_by l r => l.length + r.length

/-- Value contributed by a merge element under a binary operator, with the
missing side substituted by zero (the `match elem` in
`csmat_binop_same_storage_raw`). -/
def binopValue [Zero α] (f : α → α → α) : NnzEither α → α
  | .Left _ v => f v 0
  | .Right _ v => f 0 v
  | .Both _ lv rv => f lv rv

/-- Entries produced for one outer slice by the sparse-sparse combine: walk
the merge of the two slices and keep `(ind, f ..)` only when the operator
value is non-zero (the inner loop of `csmat_binop_same_storage_raw`). -/
def binop_slice_entries [Zero α] [DecidableEq α] (f : α → α → α)
    (l r : List (Nat × α)) : List (Nat × α) :=
  (nnz_or_zip l r).filterMap (fun e =>
    if binopValue f e ≠ 0 then some (e.ind, binopValue f e) else none)

/-- Outer slices as (index, value) pair lists, one per `indptr` window. -/
def CsMat.outerSlicesZip (m : CsMat α) : List (List (Nat × α)) :=
  (List.range (m.indptr.length - 1)).map m.sliceZip

/-- Raw implementation of the elementwise binary operation for compressed
sparse matrices sharing the same storage (binop.rs
`csmat_binop_same_storage_raw`): the zipped outer iterators are walked in
lock-step; each slice's surviving entries are appended to the output arrays
and the cumulative count is recorded in `out_indptr[dim + 1]`
(`out_indptr[0] = 0`), which makes `out_indptr` the running-sum scan of the
per-slice entry counts.  The preallocated outputs, after the caller's
truncation to the returned nnz, are exactly the lists below. -/
def csmat_binop_same_storage_raw [Zero α] [DecidableEq α] (f : α → α → α)
    (lhs rhs : CsMat α) : List Nat × List Nat × List α :=
  let rows := (lhs.outerSlicesZip.zip rhs.outerSlicesZip).map
      (fun p => binop_slice_entries f p.1 p.2)
  (List.scanl (· + ·) 0 (rows.map List.length),
   rows.flatten.map Prod.fst, rows.flatten.map Prod.snd)

/-- Allocating front end of the sparse-sparse combine (binop.rs
`csmat_binop_same_storage_alloc`): dimension and storage checks, then the raw
kernel, then checked construction.  The Rust `.unwrap()` panic on a failed
check is modelled by propagating the error; it is unreachable for
structurally valid operands (C9). -/
def csmat_binop_same_storage_alloc [Zero α] [DecidableEq α] (f : α → α → α)
    (lhs rhs : CsMat α) : Except SprsError (CsMat α) :=
  if lhs.rows != rhs.rows || lhs.cols != rhs.cols then
    .error .IncompatibleDimensions
  else if lhs.storage != rhs.storage then .error .IncompatibleStorages
  else
    let out := csmat_binop_same_storage_raw f lhs rhs
    match CsMat.new_owned lhs.storage lhs.rows lhs.cols out.1 out.2.1
        out.2.2 with
    | .ok m => .ok m
    | .error e => .error e

/-- Sparse matrix addition with both operands in the same storage (binop.rs
`add_mat_same_storage`). -/
def add_mat_same_storage [CommRing α] [DecidableEq α] (lhs rhs : CsMat α) :
    Except SprsError (CsMat α) :=
  csmat_binop_same_storage_alloc (fun x y => x + y) lhs rhs

/-- Sparse matrix subtraction with both operands in the same storage
(binop.rs `sub_mat_same_storage`). -/
def sub_mat_same_storage [CommRing α] [DecidableEq α] (lhs rhs : CsMat α) :
    Except SprsError (CsMat α) :=
  csmat_binop_same_storage_alloc (fun x y => x - y) lhs rhs

/-- Elementwise sparse matrix product with both operands in the same storage
(binop.rs `mul_mat_same_storage`). -/
def mul_mat_same_storage [CommRing α] [DecidableEq α] (lhs rhs : CsMat α) :
    Except SprsError (CsMat α) :=
  csmat_binop_same_storage_alloc (fun x y => x * y) lhs rhs

/-- Structural validity: the matrix passes `check_compressed_structure`. -/
def CsMat.checkValid (m : CsMat α) : Prop :=
  m.check_compressed_structure = .ok ()

/-! Bridging lemmas between the executable checks and their propositional
characterisations. -/

theorem boolSortedLe_iff :
    ∀ l : List Nat, boolSortedLe l = true ↔ List.Chain' (· ≤ ·) l
  | [] => by simp [boolSortedLe]
  | [_] => by simp [boolSortedLe]
  | a :: b :: rest => by
    rw [boolSortedLe, Bool.and_eq_true, boolSortedLe_iff (b :: rest),
      List.chain'_cons]
    simp [Nat.ble_eq]

theorem boolSortedLt_iff :
    ∀ l : List Nat, boolSortedLt l = true ↔ List.Chain' (· < ·) l
  | [] => by simp [boolSortedLt]
  | [_] => by simp [boolSortedLt]
  | a :: b :: rest => by
    rw [boolSortedLt, Bool.and_eq_true, boolSortedLt_iff (b :: rest),
      List.chain'_cons]
    simp [Nat.blt_eq]

theorem checkVecList_ok_iff (vs : List (CsVec α)) :
    checkVecList vs = .ok () ↔ ∀ v ∈ vs, v.check_structure = .ok () := by
  induction vs with
  | nil => simp [checkVecList]
  | cons v vs ih =>
    rw [checkVecList]
    cases h : v.check_structure with
    | ok u =>
      cases u
      simp [h, ih]
    | error e =>
      simp only [List.mem_cons]
      constructor
      · intro hc; cases hc
      · intro hall
        exact absurd (hall v (Or.inl rfl)) (by simp [h])

theorem csvec_check_ok_iff (v : CsVec α) :
    v.check_structure = .ok () ↔
      List.Chain' (· < ·) v.indices ∧ ∀ i ∈ v.indices, i < v.dim := by
  unfold CsVec.check_structure
  cases hs : boolSortedLt v.indices with
  | false =>
    rw [if_pos (by simp [hs])]
    have : ¬ List.Chain' (· < ·) v.indices := by
      rw [← boolSortedLt_iff, hs]; simp
    simp [this]
  | true =>
    rw [if_neg (by simp [hs])]
    cases hb : v.indices.all (fun i => i.blt v.dim) with
    | false =>
      rw [if_pos (by simp [hb])]
      constructor
      · intro hc; cases hc
      · rintro ⟨-, h2⟩
        have : v.indices.all (fun i => i.blt v.dim) = true :=
          List.all_eq_true.mpr (fun i hi => by
            simpa [Nat.blt_eq] using h2 i hi)
        rw [hb] at this
        cases this
    | true =>
      rw [if_neg (by simp [hb])]
      have h1 := (boolSortedLt_iff v.indices).mp hs
      have h2 : ∀ i ∈ v.indices, i < v.dim := fun i hi => by
        simpa [Nat.blt_eq] using List.all_eq_true.mp hb i hi
      exact iff_of_true rfl ⟨h1, h2⟩

/-- Unfolded characterisation of `check_compressed_structure = ok`. -/
theorem checkValid_iff (m : CsMat α) :
    m.checkValid ↔
      m.indptr.length = m.outer_dims + 1 ∧
      m.indices.length = m.data.length ∧
      m.indices.length = m.nnz ∧
      m.indptr.foldr max 0 ≤ m.indices.length ∧
      m.indptr.foldr max 0 ≤ usizeMax / 2 ∧
      List.Chain' (· ≤ ·) m.indptr ∧
      ∀ i < m.outer_dims, List.Chain' (· < ·) (m.sliceIndices i) ∧
        ∀ j ∈ m.sliceIndices i, j < m.inner_dims := by
  unfold CsMat.checkValid CsMat.check_compressed_structure
  by_cases h1 : m.indptr.length = m.outer_dims + 1
  case neg =>
    rw [if_pos (by simp [h1])]
    exact iff_of_false (by simp) (fun h => h1 h.1)
  rw [if_neg (by simp [h1])]
  by_cases h2 : m.indices.length = m.data.length
  case neg =>
    rw [if_pos (by simp [h2])]
    exact iff_of_false (by simp) (fun h => h2 h.2.1)
  rw [if_neg (by simp [h2])]
  by_cases h3 : m.indices.length = m.nnz
  case neg =>
    rw [if_pos (by simp [h3])]
    exact iff_of_false (by simp) (fun h => h3 h.2.2.1)
  rw [if_neg (by simp [h3])]
  by_cases h4 : m.indptr.foldr max 0 ≤ m.indices.length
  case neg =>
    rw [if_pos (by simp only [Nat.blt_eq]; omega)]
    exact iff_of_false (by simp) (fun h => h4 h.2.2.2.1)
  rw [if_neg (by simp only [Nat.blt_eq]; omega)]
  by_cases h5 : m.indptr.foldr max 0 ≤ usizeMax / 2
  case neg =>
    rw [if_pos (by simp only [Nat.blt_eq]; omega)]
    exact iff_of_false (by simp) (fun h => h5 h.2.2.2.2.1)
  rw [if_neg (by simp only [Nat.blt_eq]; omega)]
  by_cases h6 : List.Chain' (· ≤ ·) m.indptr
  case neg =>
    rw [if_pos (by simp [← boolSortedLe_iff] at h6; simp [h6])]
    exact iff_of_false (by simp) (fun h => h6 h.2.2.2.2.2.1)
  rw [if_neg (by simp [boolSortedLe_iff, h6])]
  rw [checkVecList_ok_iff]
  simp only [CsMat.outerSlices]
  constructor
  · intro hall
    refine ⟨h1, h2, h3, h4, h5, h6, ?_⟩
    intro i hi
    have hv := hall (m.outerVec i)
        (List.mem_map.mpr ⟨i, List.mem_range.mpr (by omega), rfl⟩)
    rw [csvec_check_ok_iff] at hv
    exact hv
  · rintro ⟨-, -, -, -, -, -, hslice⟩ v hv
    obtain ⟨i, hi, rfl⟩ := List.mem_map.mp hv
    rw [csvec_check_ok_iff]
    exact hslice i (by rw [List.mem_range] at hi; omega)

/-! Lemmas about running-sum offset arrays and flattened entry arrays: every
allocating operation below emits its result in this shape. -/

theorem scanl_add_getD (ls : List Nat) (a i : Nat) (h : i ≤ ls.length) :
    (List.scanl (· + ·) a ls).getD i 0 = a + (ls.take i).sum := by
  induction ls generalizing a i with
  | nil =>
    have : i = 0 := by simpa using h
    simp [this, List.scanl]
  | cons x ls ih =>
    cases i with
    | zero => simp [List.scanl]
    | succ i =>
      rw [List.scanl]
      simp only [List.getD_cons_succ, List.take_succ_cons, List.sum_cons]
      rw [ih (a + x) i (by simpa using h)]
      omega

theorem scanl_add_cons (a : Nat) (ls : List Nat) :
    ∃ t, List.scanl (· + ·) a ls = a :: t := by
  cases ls <;> exact ⟨_, rfl⟩

theorem scanl_add_chain_le (a : Nat) (ls : List Nat) :
    List.Chain' (· ≤ ·) (List.scanl (· + ·) a ls) := by
  induction ls generalizing a with
  | nil => simp [List.scanl]
  | cons x ls ih =>
    rw [List.scanl]
    obtain ⟨t, ht⟩ := scanl_add_cons (a + x) ls
    rw [ht]
    exact List.Chain'.cons (Nat.le_add_right a x) (ht ▸ ih (a + x))

theorem scanl_add_le_sum (a : Nat) (ls : List Nat) :
    ∀ x ∈ List.scanl (· + ·) a ls, x ≤ a + ls.sum := by
  induction ls generalizing a with
  | nil => simp [List.scanl]
  | cons y ls ih =>
    intro x hx
    rw [List.scanl] at hx
    rcases List.mem_cons.mp hx with rfl | hx
    · simp
    · have := ih (a + y) x hx
      simp only [List.sum_cons]
      omega

theorem foldr_max_le_iff (l : List Nat) (n : Nat) :
    l.foldr max 0 ≤ n ↔ ∀ x ∈ l, x ≤ n := by
  induction l with
  | nil => simp
  | cons x l ih => simp [Nat.max_le, ih]

theorem flatten_segment (rows : List (List β)) :
    ∀ i, i < rows.length →
      (rows.flatten.drop (((rows.take i).map List.length).sum)).take
          (rows.getD i []).length =
        rows.getD i [] := by
  induction rows with
  | nil => intro i hi; cases hi
  | cons r rows ih =>
    intro i hi
    cases i with
    | zero =>
      simp only [List.take_zero, List.map_nil, List.sum_nil, List.drop_zero,
        List.flatten_cons, List.getD_cons_zero]
      exact List.take_left r rows.flatten
    | succ i =>
      simp only [List.take_succ_cons, List.map_cons, List.sum_cons,
        List.flatten_cons, List.getD_cons_succ]
      rw [← List.drop_drop, List.drop_left]
      exact ih i (by simpa using hi)

/-- Matrix assembled from a list of per-outer-slice entry lists: running-sum
offsets, flattened indices and flattened values.  This is the shape of the
arrays written by `csmat_binop_same_storage_raw` and by the storage
converter. -/
def buildMat (storage : CompressedStorage) (nrows ncols : Nat)
    (rows : List (List (Nat × α))) : CsMat α :=
  { storage := storage, nrows := nrows, ncols := ncols,
    nnz := rows.flatten.length,
    indptr := List.scanl (· + ·) 0 (rows.map List.length),
    indices := rows.flatten.map Prod.fst,
    data := rows.flatten.map Prod.snd }

theorem buildMat_indptr_getD (storage : CompressedStorage)
    (nrows ncols : Nat) (rows : List (List (Nat × α))) (i : Nat)
    (h : i ≤ rows.length) :
    (buildMat storage nrows ncols rows).indptr.getD i 0 =
      ((rows.take i).map List.length).sum := by
  show (List.scanl (· + ·) 0 (rows.map List.length)).getD i 0 = _
  rw [scanl_add_getD _ _ _ (by simpa using h), ← List.map_take]
  omega

theorem buildMat_sliceIndices (storage : CompressedStorage)
    (nrows ncols : Nat) (rows : List (List (Nat × α))) (i : Nat)
    (h : i < rows.length) :
    (buildMat storage nrows ncols rows).sliceIndices i =
      (rows.getD i []).map Prod.fst := by
  unfold CsMat.sliceIndices
  rw [buildMat_indptr_getD _ _ _ _ i (le_of_lt h),
    buildMat_indptr_getD _ _ _ _ (i + 1) h]
  have hlen : ((rows.take (i + 1)).map List.length).sum =
      ((rows.take i).map List.length).sum + (rows.getD i []).length := by
    rw [List.take_succ, List.map_append, List.sum_append]
    simp [List.getElem?_eq_getElem h, List.getD, List.getElem?_eq_getElem]
  rw [hlen]
  show ((rows.flatten.map Prod.fst).drop _).take _ = _
  rw [← List.map_drop, ← List.map_take, Nat.add_sub_cancel_left,
    flatten_segment rows i h]

theorem buildMat_sliceData (storage : CompressedStorage)
    (nrows ncols : Nat) (rows : List (List (Nat × α))) (i : Nat)
    (h : i < rows.length) :
    (buildMat storage nrows ncols rows).sliceData i =
      (rows.getD i []).map Prod.snd := by
  unfold CsMat.sliceData
  rw [buildMat_indptr_getD _ _ _ _ i (le_of_lt h),
    buildMat_indptr_getD _ _ _ _ (i + 1) h]
  have hlen : ((rows.take (i + 1)).map List.length).sum =
      ((rows.take i).map List.length).sum + (rows.getD i []).length := by
    rw [List.take_succ, List.map_append, List.sum_append]
    simp [List.getElem?_eq_getElem h, List.getD, List.getElem?_eq_getElem]
  rw [hlen]
  show ((rows.flatten.map Prod.snd).drop _).take _ = _
  rw [← List.map_drop, ← List.map_take, Nat.add_sub_cancel_left,
    flatten_segment rows i h]

theorem buildMat_sliceZip (storage : CompressedStorage)
    (nrows ncols : Nat) (rows : List (List (Nat × α))) (i : Nat)
    (h : i < rows.length) :
    (buildMat storage nrows ncols rows).sliceZip i = rows.getD i [] := by
  unfold CsMat.sliceZip
  rw [buildMat_sliceIndices _ _ _ _ i h, buildMat_sliceData _ _ _ _ i h,
    List.zip_map']
  simp

theorem buildMat_checkValid (storage : CompressedStorage) (nrows ncols : Nat)
    (rows : List (List (Nat × α)))
    (hrows : rows.length = (buildMat storage nrows ncols rows).outer_dims)
    (hsorted : ∀ row ∈ rows, List.Chain' (· < ·) (row.map Prod.fst))
    (hbound : ∀ row ∈ rows, ∀ p ∈ row,
      p.1 < (buildMat storage nrows ncols rows).inner_dims)
    (hsize : rows.flatten.length ≤ usizeMax / 2) :
    (buildMat storage nrows ncols rows).checkValid := by
  have hmem : ∀ i < rows.length, rows.getD i [] ∈ rows := by
    intro i hi
    rw [List.getD_eq_getElem rows [] hi]
    exact List.getElem_mem hi
  rw [checkValid_iff]
  refine ⟨?_, ?_, ?_, ?_, ?_, ?_, ?_⟩
  · show (List.scanl (· + ·) 0 (rows.map List.length)).length = _
    rw [List.length_scanl]
    simp [hrows]
  · simp [buildMat, Function.comp_def]
  · simp [buildMat, Function.comp_def]
  · rw [foldr_max_le_iff]
    intro x hx
    have h1 := scanl_add_le_sum 0 (rows.map List.length) x hx
    have h2 : (rows.map List.length).sum = rows.flatten.length := by
      simp [List.length_flatten]
    show x ≤ (rows.flatten.map Prod.fst).length
    simp only [List.length_map]
    omega
  · rw [foldr_max_le_iff]
    intro x hx
    have h1 := scanl_add_le_sum 0 (rows.map List.length) x hx
    have h2 : (rows.map List.length).sum = rows.flatten.length := by
      simp [List.length_flatten]
    omega
  · exact scanl_add_chain_le 0 (rows.map List.length)
  · intro i hi
    have hilen : i < rows.length := by rw [hrows]; exact hi
    rw [buildMat_sliceIndices _ _ _ _ i hilen]
    refine ⟨hsorted _ (hmem i hilen), ?_⟩
    intro j hj
    obtain ⟨p, hp, rfl⟩ := List.mem_map.mp hj
    exact hbound _ (hmem i hilen) p hp

/-! Characterisation of the merge iterator on sorted-unique inputs. -/

theorem pairwise_keys_cons {p : Nat × α} {ls : List (Nat × α)}
    (h : List.Pairwise (· < ·) ((p :: ls).map Prod.fst)) :
    (∀ q ∈ ls, p.1 < q.1) ∧ List.Pairwise (· < ·) (ls.map Prod.fst) := by
  rw [List.map_cons, List.pairwise_cons] at h
  exact ⟨fun q hq => h.1 q.1 (List.mem_map.mpr ⟨q, hq, rfl⟩), h.2⟩

theorem nnz_or_zip_ind_mem :
    ∀ (l r : List (Nat × α)), ∀ e ∈ nnz_or_zip l r,
      e.ind ∈ l.map Prod.fst ∨ e.ind ∈ r.map Prod.fst := by
  intro l r
  induction l, r using nnz_or_zip.induct with
  | case1 r =>
    intro e he
    simp only [nnz_or_zip, List.mem_map] at he
    obtain ⟨p, hp, rfl⟩ := he
    exact Or.inr (List.mem_map.mpr ⟨p, hp, rfl⟩)
  | case2 l hne =>
    intro e he
    cases l with
    | nil => simp [nnz_or_zip] at he
    | cons p ls =>
      simp only [nnz_or_zip, List.mem_map] at he
      obtain ⟨q, hq, rfl⟩ := he
      exact Or.inl (List.mem_map.mpr ⟨q, hq, rfl⟩)
  | case3 li lv ls ri rv rs hlt ih =>
    intro e he
    have heq : nnz_or_zip ((li, lv) :: ls) ((ri, rv) :: rs) =
        .Left li lv :: nnz_or_zip ls ((ri, rv) :: rs) := by
      rw [nnz_or_zip]; simp [hlt]
    rw [heq, List.mem_cons] at he
    rcases he with rfl | he
    · exact Or.inl (by simp [NnzEither.ind])
    · rcases ih e he with h | h
      · exact Or.inl (by simp only [List.map_cons, List.mem_cons]; exact Or.inr h)
      · exact Or.inr h
  | case4 li lv ls ri rv rs hnlt hlt ih =>
    intro e he
    have heq : nnz_or_zip ((li, lv) :: ls) ((ri, rv) :: rs) =
        .Right ri rv :: nnz_or_zip ((li, lv) :: ls) rs := by
      rw [nnz_or_zip]; simp [hnlt, hlt]
    rw [heq, List.mem_cons] at he
    rcases he with rfl | he
    · exact Or.inr (by simp [NnzEither.ind])
    · rcases ih e he with h | h
      · exact Or.inl h
      · exact Or.inr (by simp only [List.map_cons, List.mem_cons]; exact Or.inr h)
  | case5 li lv ls ri rv rs hnlt hnlt' ih =>
    intro e he
    have heq : nnz_or_zip ((li, lv) :: ls) ((ri, rv) :: rs) =
        .Both li lv rv :: nnz_or_zip ls rs := by
      rw [nnz_or_zip]; simp [hnlt, hnlt']
    rw [heq, List.mem_cons] at he
    rcases he with rfl | he
    · exact Or.inl (by simp [NnzEither.ind])
    · rcases ih e he with h | h
      · exact Or.inl (by simp only [List.map_cons, List.mem_cons]; exact Or.inr h)
      · exact Or.inr (by simp only [List.map_cons, List.mem_cons]; exact Or.inr h)

theorem nnz_or_zip_pairwise :
    ∀ (l r : List (Nat × α)),
      List.Pairwise (· < ·) (l.map Prod.fst) →
      List.Pairwise (· < ·) (r.map Prod.fst) →
      List.Pairwise (fun e1 e2 : NnzEither α => e1.ind < e2.ind)
        (nnz_or_zip l r) := by
  intro l r
  induction l, r using nnz_or_zip.induct with
  | case1 r =>
    intro _ hr
    simp only [nnz_or_zip]
    exact (List.pairwise_map.mpr (by
      simpa [NnzEither.ind] using List.pairwise_map.mp hr))
  | case2 l hne =>
    intro hl _
    cases l with
    | nil => simp [nnz_or_zip]
    | cons p ls =>
      simp only [nnz_or_zip]
      exact (List.pairwise_map.mpr (by
        simpa [NnzEither.ind] using List.pairwise_map.mp hl))
  | case3 li lv ls ri rv rs hlt ih =>
    intro hl hr
    obtain ⟨hlk, hl'⟩ := pairwise_keys_cons hl
    obtain ⟨hrk, hr'⟩ := pairwise_keys_cons hr
    have heq : nnz_or_zip ((li, lv) :: ls) ((ri, rv) :: rs) =
        .Left li lv :: nnz_or_zip ls ((ri, rv) :: rs) := by
      rw [nnz_or_zip]; simp [hlt]
    rw [heq, List.pairwise_cons]
    refine ⟨?_, ih hl' hr⟩
    intro e he
    show li < e.ind
    rcases nnz_or_zip_ind_mem _ _ e he with h | h
    · obtain ⟨q, hq, hqe⟩ := List.mem_map.mp h
      have := hlk q hq
      omega
    · rw [List.map_cons] at h
      rcases List.mem_cons.mp h with h2 | h2
      · omega
      · obtain ⟨q, hq, hqe⟩ := List.mem_map.mp h2
        have := hrk q hq
        omega
  | case4 li lv ls ri rv rs hnlt hlt ih =>
    intro hl hr
    obtain ⟨hlk, hl'⟩ := pairwise_keys_cons hl
    obtain ⟨hrk, hr'⟩ := pairwise_keys_cons hr
    have heq : nnz_or_zip ((li, lv) :: ls) ((ri, rv) :: rs) =
        .Right ri rv :: nnz_or_zip ((li, lv) :: ls) rs := by
      rw [nnz_or_zip]; simp [hnlt, hlt]
    rw [heq, List.pairwise_cons]
    refine ⟨?_, ih hl hr'⟩
    intro e he
    show ri < e.ind
    rcases nnz_or_zip_ind_mem _ _ e he with h | h
    · rw [List.map_cons] at h
      rcases List.mem_cons.mp h with h2 | h2
      · omega
      · obtain ⟨q, hq, hqe⟩ := List.mem_map.mp h2
        have := hlk q hq
        omega
    · obtain ⟨q, hq, hqe⟩ := List.mem_map.mp h
      have := hrk q hq
      omega
  | case5 li lv ls ri rv rs hnlt hnlt' ih =>
    intro hl hr
    obtain ⟨hlk, hl'⟩ := pairwise_keys_cons hl
    obtain ⟨hrk, hr'⟩ := pairwise_keys_cons hr
    have heq : nnz_or_zip ((li, lv) :: ls) ((ri, rv) :: rs) =
        .Both li lv rv :: nnz_or_zip ls rs := by
      rw [nnz_or_zip]; simp [hnlt, hnlt']
    rw [heq, List.pairwise_cons]
    refine ⟨?_, ih hl' hr'⟩
    intro e he
    show li < e.ind
    rcases nnz_or_zip_ind_mem _ _ e he with h | h
    · obtain ⟨q, hq, hqe⟩ := List.mem_map.mp h
      have := hlk q hq
      omega
    · obtain ⟨q, hq, hqe⟩ := List.mem_map.mp h
      have := hrk q hq
      omega

theorem mem_nnz_or_zip_Both (j : Nat) (a b : α) :
    ∀ (l r : List (Nat × α)),
      List.Pairwise (· < ·) (l.map Prod.fst) →
      List.Pairwise (· < ·) (r.map Prod.fst) →
      (NnzEither.Both j a b ∈ nnz_or_zip l r ↔ (j, a) ∈ l ∧ (j, b) ∈ r) := by
  intro l r
  induction l, r using nnz_or_zip.induct with
  | case1 r =>
    intro _ _
    simp [nnz_or_zip]
  | case2 l hne =>
    intro _ _
    cases l with
    | nil => simp [nnz_or_zip]
    | cons p ls => simp [nnz_or_zip]
  | case3 li lv ls ri rv rs hlt ih =>
    intro hl hr
    obtain ⟨hlk, hl'⟩ := pairwise_keys_cons hl
    obtain ⟨hrk, hr'⟩ := pairwise_keys_cons hr
    have heq : nnz_or_zip ((li, lv) :: ls) ((ri, rv) :: rs) =
        .Left li lv :: nnz_or_zip ls ((ri, rv) :: rs) := by
      rw [nnz_or_zip]; simp [hlt]
    rw [heq, List.mem_cons, ih hl' hr]
    constructor
    · rintro (h | h)
      · exact absurd h (by simp)
      · exact ⟨List.mem_cons_of_mem _ h.1, h.2⟩
    · rintro ⟨h1, h2⟩
      rcases List.mem_cons.mp h1 with h1 | h1
      · exfalso
        have hj : j = li := congrArg Prod.fst h1
        rcases List.mem_cons.mp h2 with h2 | h2
        · have : j = ri := congrArg Prod.fst h2
          omega
        · have := hrk _ h2
          simp only at this
          omega
      · exact Or.inr ⟨h1, h2⟩
  | case4 li lv ls ri rv rs hnlt hlt ih =>
    intro hl hr
    obtain ⟨hlk, hl'⟩ := pairwise_keys_cons hl
    obtain ⟨hrk, hr'⟩ := pairwise_keys_cons hr
    have heq : nnz_or_zip ((li, lv) :: ls) ((ri, rv) :: rs) =
        .Right ri rv :: nnz_or_zip ((li, lv) :: ls) rs := by
      rw [nnz_or_zip]; simp [hnlt, hlt]
    rw [heq, List.mem_cons, ih hl hr']
    constructor
    · rintro (h | h)
      · exact absurd h (by simp)
      · exact ⟨h.1, List.mem_cons_of_mem _ h.2⟩
    · rintro ⟨h1, h2⟩
      rcases List.mem_cons.mp h2 with h2 | h2
      · exfalso
        have hj : j = ri := congrArg Prod.fst h2
        rcases List.mem_cons.mp h1 with h1 | h1
        · have : j = li := congrArg Prod.fst h1
          omega
        · have := hlk _ h1
          simp only at this
          omega
      · exact Or.inr ⟨h1, h2⟩
  | case5 li lv ls ri rv rs hnlt hnlt' ih =>
    intro hl hr
    obtain ⟨hlk, hl'⟩ := pairwise_keys_cons hl
    obtain ⟨hrk, hr'⟩ := pairwise_keys_cons hr
    have hei : li = ri := by omega
    have heq : nnz_or_zip ((li, lv) :: ls) ((ri, rv) :: rs) =
        .Both li lv rv :: nnz_or_zip ls rs := by
      rw [nnz_or_zip]; simp [hnlt, hnlt']
    rw [heq, List.mem_cons, ih hl' hr']
    constructor
    · rintro (h | h)
      · rw [NnzEither.Both.injEq] at h
        obtain ⟨rfl, rfl, rfl⟩ := h
        exact ⟨List.mem_cons_self _ _, by rw [hei]; exact List.mem_cons_self _ _⟩
      · exact ⟨List.mem_cons_of_mem _ h.1, List.mem_cons_of_mem _ h.2⟩
    · rintro ⟨h1, h2⟩
      rcases List.mem_cons.mp h1 with h1 | h1
      · rcases List.mem_cons.mp h2 with h2 | h2
        · left
          have hj : j = li := congrArg Prod.fst h1
          have ha : a = lv := congrArg Prod.snd h1
          have hb : b = rv := congrArg Prod.snd h2
          rw [NnzEither.Both.injEq]
          exact ⟨hj, ha, hb⟩
        · exfalso
          have hj : j = li := congrArg Prod.fst h1
          have := hrk _ h2
          simp only at this
          omega
      · rcases List.mem_cons.mp h2 with h2 | h2
        · exfalso
          have hj : j = ri := congrArg Prod.fst h2
          have := hlk _ h1
          simp only at this
          omega
        · exact Or.inr ⟨h1, h2⟩

theorem mem_nnz_or_zip_Left (j : Nat) (a : α) :
    ∀ (l r : List (Nat × α)),
      List.Pairwise (· < ·) (l.map Prod.fst) →
      List.Pairwise (· < ·) (r.map Prod.fst) →
      (NnzEither.Left j a ∈ nnz_or_zip l r ↔
        (j, a) ∈ l ∧ j ∉ r.map Prod.fst) := by
  intro l r
  induction l, r using nnz_or_zip.induct with
  | case1 r =>
    intro _ _
    simp [nnz_or_zip]
  | case2 l hne =>
    intro _ _
    cases l with
    | nil => simp [nnz_or_zip]
    | cons p ls =>
      simp only [nnz_or_zip, List.mem_map, List.map_nil, List.not_mem_nil,
        not_false_iff, and_true]
      constructor
      · rintro ⟨⟨qi, qv⟩, hq, he⟩
        rw [NnzEither.Left.injEq] at he
        obtain ⟨rfl, rfl⟩ := he
        exact hq
      · intro h
        exact ⟨(j, a), h, rfl⟩
  | case3 li lv ls ri rv rs hlt ih =>
    intro hl hr
    obtain ⟨hlk, hl'⟩ := pairwise_keys_cons hl
    obtain ⟨hrk, hr'⟩ := pairwise_keys_cons hr
    have heq : nnz_or_zip ((li, lv) :: ls) ((ri, rv) :: rs) =
        .Left li lv :: nnz_or_zip ls ((ri, rv) :: rs) := by
      rw [nnz_or_zip]; simp [hlt]
    rw [heq, List.mem_cons, ih hl' hr]
    constructor
    · rintro (h | h)
      · rw [NnzEither.Left.injEq] at h
        obtain ⟨rfl, rfl⟩ := h
        refine ⟨List.mem_cons_self _ _, ?_⟩
        rw [List.map_cons]
        intro hmem
        rcases List.mem_cons.mp hmem with h2 | h2
        · omega
        · obtain ⟨q, hq, hqe⟩ := List.mem_map.mp h2
          have := hrk q hq
          omega
      · exact ⟨List.mem_cons_of_mem _ h.1, h.2⟩
    · rintro ⟨h1, h2⟩
      rcases List.mem_cons.mp h1 with h1 | h1
      · left
        have hj : j = li := congrArg Prod.fst h1
        have ha : a = lv := congrArg Prod.snd h1
        rw [NnzEither.Left.injEq]
        exact ⟨hj, ha⟩
      · exact Or.inr ⟨h1, h2⟩
  | case4 li lv ls ri rv rs hnlt hlt ih =>
    intro hl hr
    obtain ⟨hlk, hl'⟩ := pairwise_keys_cons hl
    obtain ⟨hrk, hr'⟩ := pairwise_keys_cons hr
    have heq : nnz_or_zip ((li, lv) :: ls) ((ri, rv) :: rs) =
        .Right ri rv :: nnz_or_zip ((li, lv) :: ls) rs := by
      rw [nnz_or_zip]; simp [hnlt, hlt]
    rw [heq, List.mem_cons, ih hl hr']
    constructor
    · rintro (h | h)
      · exact absurd h (by simp)
      · refine ⟨h.1, ?_⟩
        rw [List.map_cons]
        intro hmem
        rcases List.mem_cons.mp hmem with h2 | h2
        · subst h2
          rcases List.mem_cons.mp h.1 with h1 | h1
          · have : j = li := congrArg Prod.fst h1
            omega
          · have := hlk _ h1
            simp only at this
            omega
        · exact h.2 h2
    · rintro ⟨h1, h2⟩
      rw [List.map_cons] at h2
      exact Or.inr ⟨h1, fun hm => h2 (List.mem_cons_of_mem _ hm)⟩
  | case5 li lv ls ri rv rs hnlt hnlt' ih =>
    intro hl hr
    obtain ⟨hlk, hl'⟩ := pairwise_keys_cons hl
    obtain ⟨hrk, hr'⟩ := pairwise_keys_cons hr
    have hei : li = ri := by omega
    have heq : nnz_or_zip ((li, lv) :: ls) ((ri, rv) :: rs) =
        .Both li lv rv :: nnz_or_zip ls rs := by
      rw [nnz_or_zip]; simp [hnlt, hnlt']
    rw [heq, List.mem_cons, ih hl' hr']
    constructor
    · rintro (h | h)
      · exact absurd h (by simp)
      · refine ⟨List.mem_cons_of_mem _ h.1, ?_⟩
        rw [List.map_cons]
        intro hmem
        rcases List.mem_cons.mp hmem with h2 | h2
        · have := hlk _ h.1
          simp only at this
          omega
        · exact h.2 h2
    · rintro ⟨h1, h2⟩
      rw [List.map_cons] at h2
      rcases List.mem_cons.mp h1 with h1 | h1
      · exfalso
        have hj : j = li := congrArg Prod.fst h1
        exact h2 (by rw [hj, hei]; exact List.mem_cons_self _ _)
      · exact Or.inr ⟨h1, fun hm => h2 (List.mem_cons_of_mem _ hm)⟩

theorem mem_nnz_or_zip_Right (j : Nat) (b : α) :
    ∀ (l r : List (Nat × α)),
      List.Pairwise (· < ·) (l.map Prod.fst) →
      List.Pairwise (· < ·) (r.map Prod.fst) →
      (NnzEither.Right j b ∈ nnz_or_zip l r ↔
        (j, b) ∈ r ∧ j ∉ l.map Prod.fst) := by
  intro l r
  induction l, r using nnz_or_zip.induct with
  | case1 r =>
    intro _ _
    simp only [nnz_or_zip, List.mem_map, List.map_nil, List.not_mem_nil,
      not_false_iff, and_true]
    constructor
    · rintro ⟨⟨qi, qv⟩, hq, he⟩
      rw [NnzEither.Right.injEq] at he
      obtain ⟨rfl, rfl⟩ := he
      exact hq
    · intro h
      exact ⟨(j, b), h, rfl⟩
  | case2 l hne =>
    intro _ _
    cases l with
    | nil => simp [nnz_or_zip]
    | cons p ls => simp [nnz_or_zip]
  | case3 li lv ls ri rv rs hlt ih =>
    intro hl hr
    obtain ⟨hlk, hl'⟩ := pairwise_keys_cons hl
    obtain ⟨hrk, hr'⟩ := pairwise_keys_cons hr
    have heq : nnz_or_zip ((li, lv) :: ls) ((ri, rv) :: rs) =
        .Left li lv :: nnz_or_zip ls ((ri, rv) :: rs) := by
      rw [nnz_or_zip]; simp [hlt]
    rw [heq, List.mem_cons, ih hl' hr]
    constructor
    · rintro (h | h)
      · exact absurd h (by simp)
      · refine ⟨h.1, ?_⟩
        rw [List.map_cons]
        intro hmem
        rcases List.mem_cons.mp hmem with h2 | h2
        · subst h2
          rcases List.mem_cons.mp h.1 with h1 | h1
          · have : j = ri := congrArg Prod.fst h1
            omega
          · have := hrk _ h1
            simp only at this
            omega
        · exact h.2 h2
    · rintro ⟨h1, h2⟩
      rw [List.map_cons] at h2
      exact Or.inr ⟨h1, fun hm => h2 (List.mem_cons_of_mem _ hm)⟩
  | case4 li lv ls ri rv rs hnlt hlt ih =>
    intro hl hr
    obtain ⟨hlk, hl'⟩ := pairwise_keys_cons hl
    obtain ⟨hrk, hr'⟩ := pairwise_keys_cons hr
    have heq : nnz_or_zip ((li, lv) :: ls) ((ri, rv) :: rs) =
        .Right ri rv :: nnz_or_zip ((li, lv) :: ls) rs := by
      rw [nnz_or_zip]; simp [hnlt, hlt]
    rw [heq, List.mem_cons, ih hl hr']
    constructor
    · rintro (h | h)
      · rw [NnzEither.Right.injEq] at h
        obtain ⟨rfl, rfl⟩ := h
        refine ⟨List.mem_cons_self _ _, ?_⟩
        rw [List.map_cons]
        intro hmem
        rcases List.mem_cons.mp hmem with h2 | h2
        · omega
        · obtain ⟨q, hq, hqe⟩ := List.mem_map.mp h2
          have := hlk q hq
          omega
      · exact ⟨List.mem_cons_of_mem _ h.1, h.2⟩
    · rintro ⟨h1, h2⟩
      rcases List.mem_cons.mp h1 with h1 | h1
      · left
        have hj : j = ri := congrArg Prod.fst h1
        have hb : b = rv := congrArg Prod.snd h1
        rw [NnzEither.Right.injEq]
        exact ⟨hj, hb⟩
      · exact Or.inr ⟨h1, h2⟩
  | case5 li lv ls ri rv rs hnlt hnlt' ih =>
    intro hl hr
    obtain ⟨hlk, hl'⟩ := pairwise_keys_cons hl
    obtain ⟨hrk, hr'⟩ := pairwise_keys_cons hr
    have hei : li = ri := by omega
    have heq : nnz_or_zip ((li, lv) :: ls) ((ri, rv) :: rs) =
        .Both li lv rv :: nnz_or_zip ls rs := by
      rw [nnz_or_zip]; simp [hnlt, hnlt']
    rw [heq, List.mem_cons, ih hl' hr']
    constructor
    · rintro (h | h)
      · exact absurd h (by simp)
      · refine ⟨List.mem_cons_of_mem _ h.1, ?_⟩
        rw [List.map_cons]
        intro hmem
        rcases List.mem_cons.mp hmem with h2 | h2
        · have := hrk _ h.1
          simp only at this
          omega
        · exact h.2 h2
    · rintro ⟨h1, h2⟩
      rw [List.map_cons] at h2
      rcases List.mem_cons.mp h1 with h1 | h1
      · exfalso
        have hj : j = ri := congrArg Prod.fst h1
        exact h2 (by rw [hj, ← hei]; exact List.mem_cons_self _ _)
      · exact Or.inr ⟨h1, fun hm => h2 (List.mem_cons_of_mem _ hm)⟩

/-! Association-list lookup on sorted-unique pair lists. -/

theorem lookup_eq_none_iff (l : List (Nat × α)) (j : Nat) :
    List.lookup j l = none ↔ j ∉ l.map Prod.fst := by
  induction l with
  | nil => simp
  | cons p l ih =>
    rcases p with ⟨pi, pv⟩
    by_cases h : j = pi
    · subst h
      simp [List.lookup]
    · rw [show List.lookup j ((pi, pv) :: l) = List.lookup j l from by
        simp [List.lookup, beq_false_of_ne h]]
      rw [ih, List.map_cons]
      simp [h]

theorem lookup_eq_some_iff_mem (l : List (Nat × α))
    (hl : List.Pairwise (· < ·) (l.map Prod.fst)) (j : Nat) (a : α) :
    List.lookup j l = some a ↔ (j, a) ∈ l := by
  induction l with
  | nil => simp
  | cons p l ih =>
    obtain ⟨hk, hl'⟩ := pairwise_keys_cons hl
    rcases p with ⟨pi, pv⟩
    by_cases h : j = pi
    · subst h
      rw [show List.lookup j ((j, pv) :: l) = some pv from by simp [List.lookup]]
      constructor
      · intro h2
        rw [Option.some.injEq] at h2
        subst h2
        exact List.mem_cons_self _ _
      · intro h2
        rcases List.mem_cons.mp h2 with h2 | h2
        · have : a = pv := congrArg Prod.snd h2
          rw [this]
        · exfalso
          have := hk _ h2
          simp only at this
          omega
    · rw [show List.lookup j ((pi, pv) :: l) = List.lookup j l from by
        simp [List.lookup, beq_false_of_ne h]]
      rw [ih hl']
      constructor
      · exact List.mem_cons_of_mem _
      · intro h2
        rcases List.mem_cons.mp h2 with h2 | h2
        · exact absurd (congrArg Prod.fst h2) h
        · exact h2

/-- Per-slice characterisation of the sparse-sparse combine: the surviving
entries are exactly the union positions whose operator value is non-zero,
each holding that value (absent operands read as zero). -/
theorem binop_slice_entries_mem [Zero α] [DecidableEq α] (f : α → α → α)
    (l r : List (Nat × α))
    (hl : List.Pairwise (· < ·) (l.map Prod.fst))
    (hr : List.Pairwise (· < ·) (r.map Prod.fst)) (j : Nat) (v : α) :
    (j, v) ∈ binop_slice_entries f l r ↔
      (j ∈ l.map Prod.fst ∨ j ∈ r.map Prod.fst) ∧
        v = f ((List.lookup j l).getD 0) ((List.lookup j r).getD 0) ∧
        v ≠ 0 := by
  unfold binop_slice_entries
  rw [List.mem_filterMap]
  constructor
  · rintro ⟨e, he, hsome⟩
    by_cases hz : binopValue f e ≠ 0
    case neg =>
      rw [if_neg hz] at hsome
      cases hsome
    rw [if_pos hz, Option.some.injEq] at hsome
    have hje : e.ind = j := congrArg Prod.fst hsome
    have hv : binopValue f e = v := congrArg Prod.snd hsome
    cases e with
    | Left i a =>
      simp only [NnzEither.ind] at hje
      rw [hje] at he
      rw [mem_nnz_or_zip_Left _ _ _ _ hl hr] at he
      obtain ⟨hmem, hnot⟩ := he
      have hlook : List.lookup j l = some a :=
        (lookup_eq_some_iff_mem l hl j a).mpr hmem
      have hlookr : List.lookup j r = none := (lookup_eq_none_iff r j).mpr hnot
      refine ⟨Or.inl (List.mem_map.mpr ⟨(j, a), hmem, rfl⟩), ?_, ?_⟩
      · rw [hlook, hlookr]
        simp only [binopValue] at hv
        simpa using hv.symm
      · rw [← hv]
        exact hz
    | Right i b =>
      simp only [NnzEither.ind] at hje
      rw [hje] at he
      rw [mem_nnz_or_zip_Right _ _ _ _ hl hr] at he
      obtain ⟨hmem, hnot⟩ := he
      have hlook : List.lookup j r = some b :=
        (lookup_eq_some_iff_mem r hr j b).mpr hmem
      have hlookl : List.lookup j l = none := (lookup_eq_none_iff l j).mpr hnot
      refine ⟨Or.inr (List.mem_map.mpr ⟨(j, b), hmem, rfl⟩), ?_, ?_⟩
      · rw [hlook, hlookl]
        simp only [binopValue] at hv
        simpa using hv.symm
      · rw [← hv]
        exact hz
    | Both i a b =>
      simp only [NnzEither.ind] at hje
      rw [hje] at he
      rw [mem_nnz_or_zip_Both _ _ _ _ _ hl hr] at he
      obtain ⟨hmeml, hmemr⟩ := he
      have hlookl : List.lookup j l = some a :=
        (lookup_eq_some_iff_mem l hl j a).mpr hmeml
      have hlookr : List.lookup j r = some b :=
        (lookup_eq_some_iff_mem r hr j b).mpr hmemr
      refine ⟨Or.inl (List.mem_map.mpr ⟨(j, a), hmeml, rfl⟩), ?_, ?_⟩
      · rw [hlookl, hlookr]
        simp only [binopValue] at hv
        simpa using hv.symm
      · rw [← hv]
        exact hz
  · rintro ⟨hunion, hval, hnz⟩
    cases hll : List.lookup j l with
    | some a =>
      cases hlr : List.lookup j r with
      | some b =>
        refine ⟨.Both j a b, ?_, ?_⟩
        · rw [mem_nnz_or_zip_Both _ _ _ _ _ hl hr]
          exact ⟨(lookup_eq_some_iff_mem l hl j a).mp hll,
            (lookup_eq_some_iff_mem r hr j b).mp hlr⟩
        · rw [hll, hlr] at hval
          simp only [Option.getD_some] at hval
          rw [if_pos (by simp only [binopValue]; rw [← hval]; exact hnz)]
          simp only [binopValue, NnzEither.ind]
          rw [← hval]
      | none =>
        refine ⟨.Left j a, ?_, ?_⟩
        · rw [mem_nnz_or_zip_Left _ _ _ _ hl hr]
          exact ⟨(lookup_eq_some_iff_mem l hl j a).mp hll,
            (lookup_eq_none_iff r j).mp hlr⟩
        · rw [hll, hlr] at hval
          simp only [Option.getD_some, Option.getD_none] at hval
          rw [if_pos (by simp only [binopValue]; rw [← hval]; exact hnz)]
          simp only [binopValue, NnzEither.ind]
          rw [← hval]
    | none =>
      cases hlr : List.lookup j r with
      | some b =>
        refine ⟨.Right j b, ?_, ?_⟩
        · rw [mem_nnz_or_zip_Right _ _ _ _ hl hr]
          exact ⟨(lookup_eq_some_iff_mem r hr j b).mp hlr,
            (lookup_eq_none_iff l j).mp hll⟩
        · rw [hll, hlr] at hval
          simp only [Option.getD_some, Option.getD_none] at hval
          rw [if_pos (by simp only [binopValue]; rw [← hval]; exact hnz)]
          simp only [binopValue, NnzEither.ind]
          rw [← hval]
      | none =>
        exfalso
        rcases hunion with h | h
        · exact absurd hll (by
            rw [lookup_eq_none_iff]
            simp [h])
        · exact absurd hlr (by
            rw [lookup_eq_none_iff]
            simp [h])

/-! Size bounds and slice facts used to validate the outputs. -/

theorem sum_map_add_distrib (l : List β) (f g : β → Nat) :
    (l.map (fun i => f i + g i)).sum = (l.map f).sum + (l.map g).sum := by
  induction l with
  | nil => simp
  | cons x l ih =>
    simp only [List.map_cons, List.sum_cons, ih]
    omega

theorem nnz_or_zip_length_le :
    ∀ (l r : List (Nat × α)),
      (nnz_or_zip l r).length ≤ l.length + r.length := by
  intro l r
  induction l, r using nnz_or_zip.induct with
  | case1 r => simp [nnz_or_zip]
  | case2 l hne =>
    cases l with
    | nil => simp [nnz_or_zip]
    | cons p ls => simp [nnz_or_zip]
  | case3 li lv ls ri rv rs hlt ih =>
    rw [show nnz_or_zip ((li, lv) :: ls) ((ri, rv) :: rs) =
        .Left li lv :: nnz_or_zip ls ((ri, rv) :: rs) from by
      rw [nnz_or_zip]; simp [hlt]]
    simp only [List.length_cons]
    simp only [List.length_cons] at ih ⊢
    omega
  | case4 li lv ls ri rv rs hnlt hlt ih =>
    rw [show nnz_or_zip ((li, lv) :: ls) ((ri, rv) :: rs) =
        .Right ri rv :: nnz_or_zip ((li, lv) :: ls) rs from by
      rw [nnz_or_zip]; simp [hnlt, hlt]]
    simp only [List.length_cons]
    simp only [List.length_cons] at ih ⊢
    omega
  | case5 li lv ls ri rv rs hnlt hnlt' ih =>
    rw [show nnz_or_zip ((li, lv) :: ls) ((ri, rv) :: rs) =
        .Both li lv rv :: nnz_or_zip ls rs from by
      rw [nnz_or_zip]; simp [hnlt, hnlt']]
    simp only [List.length_cons]
    omega

theorem binop_slice_entries_length_le [Zero α] [DecidableEq α]
    (f : α → α → α) (l r : List (Nat × α)) :
    (binop_slice_entries f l r).length ≤ l.length + r.length :=
  le_trans (List.length_filterMap_le _ _) (nnz_or_zip_length_le l r)

theorem sum_getD_diffs_le :
    ∀ (ip : List Nat) (N : Nat), List.Chain' (· ≤ ·) ip →
      (∀ x ∈ ip, x ≤ N) →
      ((List.range (ip.length - 1)).map
        (fun i => ip.getD (i + 1) 0 - ip.getD i 0)).sum ≤
        N - ip.head?.getD 0
  | [], N => by simp
  | [a], N => by simp
  | a :: b :: t, N => by
    intro hc hb
    have IH := sum_getD_diffs_le (b :: t) N
      (List.chain'_cons.mp hc).2
      (fun x hx => hb x (List.mem_cons_of_mem _ hx))
    have hab : a ≤ b := (List.chain'_cons.mp hc).1
    have hbN : b ≤ N := hb b (List.mem_cons_of_mem _ (List.mem_cons_self _ _))
    rw [show (a :: b :: t).length - 1 = ((b :: t).length - 1) + 1 from by
      simp]
    rw [List.range_succ_eq_map]
    simp only [List.map_cons, List.sum_cons, List.map_map]
    have hfun : ((List.range ((b :: t).length - 1)).map
        ((fun i => (a :: b :: t).getD (i + 1) 0 - (a :: b :: t).getD i 0) ∘
          (· + 1))).sum =
        ((List.range ((b :: t).length - 1)).map
          (fun i => (b :: t).getD (i + 1) 0 - (b :: t).getD i 0)).sum := by
      apply congrArg
      apply List.map_congr_left
      intro i _
      simp [Function.comp]
    rw [hfun]
    simp only [List.getD_cons_succ, List.getD_cons_zero, List.head?_cons,
      Option.getD_some] at IH ⊢
    omega

theorem sliceZip_length_le (m : CsMat α) (i : Nat) :
    (m.sliceZip i).length ≤
      m.indptr.getD (i + 1) 0 - m.indptr.getD i 0 := by
  unfold CsMat.sliceZip CsMat.sliceIndices CsMat.sliceData
  rw [List.length_zip]
  simp only [List.length_take]
  omega

theorem sum_outerSlicesZip_length_le (m : CsMat α) (h : m.checkValid) :
    (m.outerSlicesZip.map List.length).sum ≤ m.indices.length := by
  obtain ⟨h1, h2, h3, h4, h5, h6, h7⟩ := (checkValid_iff m).mp h
  unfold CsMat.outerSlicesZip
  rw [List.map_map]
  have hmono : ((List.range (m.indptr.length - 1)).map
      (List.length ∘ m.sliceZip)).sum ≤
      ((List.range (m.indptr.length - 1)).map
        (fun i => m.indptr.getD (i + 1) 0 - m.indptr.getD i 0)).sum := by
    apply List.sum_le_sum
    intro i _
    exact sliceZip_length_le m i
  have hbound : ∀ x ∈ m.indptr, x ≤ m.indices.length :=
    (foldr_max_le_iff _ _).mp h4
  have := sum_getD_diffs_le m.indptr m.indices.length h6 hbound
  omega

/-- Keys kept by the per-slice combine form a sublist of the merge indices. -/
theorem filterMap_map_fst_sublist {g : γ → Option (Nat × α)}
    {h : γ → Nat} (hc : ∀ e x, g e = some x → x.1 = h e) :
    ∀ l : List γ, ((l.filterMap g).map Prod.fst).Sublist (l.map h) := by
  intro l
  induction l with
  | nil => simp
  | cons e l ih =>
    rw [List.filterMap_cons]
    cases hg : g e with
    | none =>
      rw [List.map_cons]
      exact ih.cons _
    | some x =>
      rw [List.map_cons, List.map_cons, hc e x hg]
      exact ih.cons₂ _

theorem binop_slice_entries_keys_pairwise [Zero α] [DecidableEq α]
    (f : α → α → α) (l r : List (Nat × α))
    (hl : List.Pairwise (· < ·) (l.map Prod.fst))
    (hr : List.Pairwise (· < ·) (r.map Prod.fst)) :
    List.Pairwise (· < ·) ((binop_slice_entries f l r).map Prod.fst) := by
  have hsub : ((binop_slice_entries f l r).map Prod.fst).Sublist
      ((nnz_or_zip l r).map NnzEither.ind) := by
    apply filterMap_map_fst_sublist
    intro e x hg
    by_cases hz : binopValue f e ≠ 0
    · rw [if_pos hz, Option.some.injEq] at hg
      rw [← hg]
    · rw [if_neg hz] at hg
      cases hg
  exact (List.pairwise_map.mpr (nnz_or_zip_pairwise l r hl hr)).sublist hsub

theorem binop_slice_entries_keys_union [Zero α] [DecidableEq α]
    (f : α → α → α) (l r : List (Nat × α)) :
    ∀ p ∈ binop_slice_entries f l r,
      p.1 ∈ l.map Prod.fst ∨ p.1 ∈ r.map Prod.fst := by
  intro p hp
  unfold binop_slice_entries at hp
  obtain ⟨e, he, hg⟩ := List.mem_filterMap.mp hp
  by_cases hz : binopValue f e ≠ 0
  · rw [if_pos hz, Option.some.injEq] at hg
    have : p.1 = e.ind := by rw [← hg]
    rw [this]
    exact nnz_or_zip_ind_mem l r e he
  · rw [if_neg hz] at hg
    cases hg

theorem sliceZip_map_fst (m : CsMat α)
    (hlen : m.indices.length = m.data.length) (i : Nat) :
    (m.sliceZip i).map Prod.fst = m.sliceIndices i := by
  unfold CsMat.sliceZip
  apply List.map_fst_zip
  unfold CsMat.sliceIndices CsMat.sliceData
  simp only [List.length_take, List.length_drop, hlen]
  exact le_refl _

theorem valid_slice_pairwise (m : CsMat α) (h : m.checkValid) (i : Nat)
    (hi : i < m.outer_dims) :
    List.Pairwise (· < ·) ((m.sliceZip i).map Prod.fst) := by
  obtain ⟨h1, h2, h3, h4, h5, h6, h7⟩ := (checkValid_iff m).mp h
  rw [sliceZip_map_fst m h2]
  exact List.chain'_iff_pairwise.mp (h7 i hi).1

theorem valid_slice_bound (m : CsMat α) (h : m.checkValid) (i : Nat)
    (hi : i < m.outer_dims) :
    ∀ j ∈ (m.sliceZip i).map Prod.fst, j < m.inner_dims := by
  obtain ⟨h1, h2, h3, h4, h5, h6, h7⟩ := (checkValid_iff m).mp h
  rw [sliceZip_map_fst m h2]
  exact (h7 i hi).2

theorem binop_rows_eq [Zero α] [DecidableEq α] (f : α → α → α)
    (lhs rhs : CsMat α) (hlen : lhs.indptr.length = rhs.indptr.length) :
    (lhs.outerSlicesZip.zip rhs.outerSlicesZip).map
        (fun p => binop_slice_entries f p.1 p.2) =
      (List.range (lhs.indptr.length - 1)).map
        (fun i => binop_slice_entries f (lhs.sliceZip i) (rhs.sliceZip i)) := by
  unfold CsMat.outerSlicesZip
  rw [← hlen, List.zip_map', List.map_map]
  rfl

theorem new_owned_eq_ok (storage : CompressedStorage) (nrows ncols : Nat)
    (indptr indices : List Nat) (data : List α)
    (h : ({ storage := storage, nrows := nrows, ncols := ncols,
            nnz := data.length, indptr := indptr, indices := indices,
            data := data } : CsMat α).checkValid) :
    CsMat.new_owned storage nrows ncols indptr indices data =
      .ok { storage := storage, nrows := nrows, ncols := ncols,
            nnz := data.length, indptr := indptr, indices := indices,
            data := data } := by
  have h' := h
  unfold CsMat.checkValid at h'
  unfold CsMat.new_owned
  simp only [h']

theorem outer_dims_congr (lhs rhs : CsMat α) (hrw : lhs.nrows = rhs.nrows)
    (hcl : lhs.ncols = rhs.ncols) (hst : lhs.storage = rhs.storage) :
    lhs.outer_dims = rhs.outer_dims := by
  unfold CsMat.outer_dims
  rw [← hst]
  cases lhs.storage <;> simp [hrw, hcl]

theorem inner_dims_congr (lhs rhs : CsMat α) (hrw : lhs.nrows = rhs.nrows)
    (hcl : lhs.ncols = rhs.ncols) (hst : lhs.storage = rhs.storage) :
    lhs.inner_dims = rhs.inner_dims := by
  unfold CsMat.inner_dims
  rw [← hst]
  cases lhs.storage <;> simp [hrw, hcl]

/-- Core correctness package for the sparse-sparse combine: on structurally
valid operands with matching shapes and storages, the allocating front end
returns the matrix assembled from the per-slice merge-and-prune entry lists,
and that matrix is itself structurally valid (so the Rust `.unwrap()` cannot
panic). -/
theorem csmat_binop_alloc_eq_of_size [Zero α] [DecidableEq α]
    (f : α → α → α)
    (lhs rhs : CsMat α) (hl : lhs.checkValid) (hr : rhs.checkValid)
    (hrw : lhs.nrows = rhs.nrows) (hcl : lhs.ncols = rhs.ncols)
    (hst : lhs.storage = rhs.storage)
    (hosize : (((List.range lhs.outer_dims).map
      (fun i => binop_slice_entries f (lhs.sliceZip i)
        (rhs.sliceZip i))).flatten).length ≤ usizeMax / 2) :
    csmat_binop_same_storage_alloc f lhs rhs =
        .ok (buildMat lhs.storage lhs.nrows lhs.ncols
          ((List.range lhs.outer_dims).map
            (fun i => binop_slice_entries f (lhs.sliceZip i)
              (rhs.sliceZip i)))) ∧
      (buildMat lhs.storage lhs.nrows lhs.ncols
        ((List.range lhs.outer_dims).map
          (fun i => binop_slice_entries f (lhs.sliceZip i)
            (rhs.sliceZip i)))).checkValid := by
  have houter := outer_dims_congr lhs rhs hrw hcl hst
  have hinner := inner_dims_congr lhs rhs hrw hcl hst
  obtain ⟨l1, l2, l3, l4, l5, l6, l7⟩ := (checkValid_iff lhs).mp hl
  obtain ⟨r1, r2, r3, r4, r5, r6, r7⟩ := (checkValid_iff rhs).mp hr
  have hlen : lhs.indptr.length = rhs.indptr.length := by
    rw [l1, r1, houter]
  have hbuild_outer :
      (buildMat lhs.storage lhs.nrows lhs.ncols
        ((List.range lhs.outer_dims).map
          (fun i => binop_slice_entries f (lhs.sliceZip i)
            (rhs.sliceZip i)))).outer_dims = lhs.outer_dims := rfl
  have hbuild_inner :
      (buildMat lhs.storage lhs.nrows lhs.ncols
        ((List.range lhs.outer_dims).map
          (fun i => binop_slice_entries f (lhs.sliceZip i)
            (rhs.sliceZip i)))).inner_dims = lhs.inner_dims := rfl
  have hvalid :
      (buildMat lhs.storage lhs.nrows lhs.ncols
        ((List.range lhs.outer_dims).map
          (fun i => binop_slice_entries f (lhs.sliceZip i)
            (rhs.sliceZip i)))).checkValid := by
    apply buildMat_checkValid
    · rw [hbuild_outer]
      simp
    · intro row hrow
      obtain ⟨i, hi, rfl⟩ := List.mem_map.mp hrow
      rw [List.mem_range] at hi
      exact List.chain'_iff_pairwise.mpr
        (binop_slice_entries_keys_pairwise f _ _
          (valid_slice_pairwise lhs hl i hi)
          (valid_slice_pairwise rhs hr i (houter ▸ hi)))
    · intro row hrow p hp
      obtain ⟨i, hi, rfl⟩ := List.mem_map.mp hrow
      rw [List.mem_range] at hi
      rw [hbuild_inner]
      rcases binop_slice_entries_keys_union f _ _ p hp with hkey | hkey
      · exact valid_slice_bound lhs hl i hi p.1 hkey
      · rw [hinner]
        exact valid_slice_bound rhs hr i (houter ▸ hi) p.1 hkey
    · exact hosize
  refine ⟨?_, hvalid⟩
  unfold csmat_binop_same_storage_alloc
  rw [if_neg (by simp [CsMat.rows, CsMat.cols, hrw, hcl]),
    if_neg (by simp [hst])]
  have hraw : csmat_binop_same_storage_raw f lhs rhs =
      (List.scanl (· + ·) 0
        (((List.range lhs.outer_dims).map
          (fun i => binop_slice_entries f (lhs.sliceZip i)
            (rhs.sliceZip i))).map List.length),
       ((List.range lhs.outer_dims).map
          (fun i => binop_slice_entries f (lhs.sliceZip i)
            (rhs.sliceZip i))).flatten.map Prod.fst,
       ((List.range lhs.outer_dims).map
          (fun i => binop_slice_entries f (lhs.sliceZip i)
            (rhs.sliceZip i))).flatten.map Prod.snd) := by
    unfold csmat_binop_same_storage_raw
    rw [binop_rows_eq f lhs rhs hlen, l1]
    simp
  simp only [hraw]
  have hrec :
      ({ storage := lhs.storage, nrows := lhs.rows, ncols := lhs.cols,
         nnz := (((List.range lhs.outer_dims).map
           (fun i => binop_slice_entries f (lhs.sliceZip i)
             (rhs.sliceZip i))).flatten.map Prod.snd).length,
         indptr := List.scanl (· + ·) 0
           (((List.range lhs.outer_dims).map
             (fun i => binop_slice_entries f (lhs.sliceZip i)
               (rhs.sliceZip i))).map List.length),
         indices := ((List.range lhs.outer_dims).map
           (fun i => binop_slice_entries f (lhs.sliceZip i)
             (rhs.sliceZip i))).flatten.map Prod.fst,
         data := ((List.range lhs.outer_dims).map
           (fun i => binop_slice_entries f (lhs.sliceZip i)
             (rhs.sliceZip i))).flatten.map Prod.snd } : CsMat α) =
      buildMat lhs.storage lhs.nrows lhs.ncols
        ((List.range lhs.outer_dims).map
          (fun i => binop_slice_entries f (lhs.sliceZip i)
            (rhs.sliceZip i))) := by
    unfold buildMat
    simp only [CsMat.rows, CsMat.cols, List.length_map]
  rw [new_owned_eq_ok _ _ _ _ _ _ (hrec.symm ▸ hvalid), hrec]

theorem getD_range_map (f : Nat → List (Nat × α)) (n i : Nat) (h : i < n) :
    ((List.range n).map f).getD i [] = f i := by
  rw [List.getD_eq_getElem _ _ (by simpa using h)]
  simp

/-- Wrapper: the output-size bound follows from the operands' stored-entry
counts, since the result allocates at most `lhs.nnz + rhs.nnz` entries. -/
theorem csmat_binop_alloc_eq [Zero α] [DecidableEq α] (f : α → α → α)
    (lhs rhs : CsMat α) (hl : lhs.checkValid) (hr : rhs.checkValid)
    (hrw : lhs.nrows = rhs.nrows) (hcl : lhs.ncols = rhs.ncols)
    (hst : lhs.storage = rhs.storage)
    (hsize : lhs.indices.length + rhs.indices.length ≤ usizeMax / 2) :
    csmat_binop_same_storage_alloc f lhs rhs =
        .ok (buildMat lhs.storage lhs.nrows lhs.ncols
          ((List.range lhs.outer_dims).map
            (fun i => binop_slice_entries f (lhs.sliceZip i)
              (rhs.sliceZip i)))) ∧
      (buildMat lhs.storage lhs.nrows lhs.ncols
        ((List.range lhs.outer_dims).map
          (fun i => binop_slice_entries f (lhs.sliceZip i)
            (rhs.sliceZip i)))).checkValid := by
  have houter := outer_dims_congr lhs rhs hrw hcl hst
  obtain ⟨l1, l2, l3, l4, l5, l6, l7⟩ := (checkValid_iff lhs).mp hl
  obtain ⟨r1, r2, r3, r4, r5, r6, r7⟩ := (checkValid_iff rhs).mp hr
  apply csmat_binop_alloc_eq_of_size f lhs rhs hl hr hrw hcl hst
  rw [List.length_flatten, List.map_map]
  have hpoint : ((List.range lhs.outer_dims).map
      (List.length ∘ fun i => binop_slice_entries f (lhs.sliceZip i)
        (rhs.sliceZip i))).sum ≤
      ((List.range lhs.outer_dims).map
        (fun i => (lhs.sliceZip i).length + (rhs.sliceZip i).length)).sum := by
    apply List.sum_le_sum
    intro i _
    exact binop_slice_entries_length_le f _ _
  have hsplit := sum_map_add_distrib (List.range lhs.outer_dims)
    (fun i => (lhs.sliceZip i).length) (fun i => (rhs.sliceZip i).length)
  have hsuml : ((List.range lhs.outer_dims).map
      (fun i => (lhs.sliceZip i).length)).sum ≤ lhs.indices.length := by
    have := sum_outerSlicesZip_length_le lhs hl
    unfold CsMat.outerSlicesZip at this
    rw [List.map_map, l1] at this
    simpa using this
  have hsumr : ((List.range lhs.outer_dims).map
      (fun i => (rhs.sliceZip i).length)).sum ≤ rhs.indices.length := by
    have := sum_outerSlicesZip_length_le rhs hr
    unfold CsMat.outerSlicesZip at this
    rw [List.map_map, r1, ← houter] at this
    simpa using this
  omega

theorem scale_sliceZip [Mul α] (m : CsMat α) (c : α) (i : Nat) :
    (m.scale c).sliceZip i = (m.sliceZip i).map (fun p => (p.1, p.2 * c)) := by
  unfold CsMat.sliceZip CsMat.sliceIndices CsMat.sliceData CsMat.scale
  simp only []
  rw [← List.map_drop, ← List.map_take, List.zip_map_right]
  rfl

theorem scale_checkValid [Mul α] (m : CsMat α) (c : α) (h : m.checkValid) :
    (m.scale c).checkValid := by
  rw [checkValid_iff] at h ⊢
  obtain ⟨h1, h2, h3, h4, h5, h6, h7⟩ := h
  refine ⟨h1, ?_, h3, h4, h5, h6, h7⟩
  simp only [CsMat.scale, List.length_map]
  exact h2

theorem nnz_or_zip_self_map [Mul α] (c : α) :
    ∀ l : List (Nat × α),
      nnz_or_zip l (l.map (fun p => (p.1, p.2 * c))) =
        l.map (fun p => NnzEither.Both p.1 p.2 (p.2 * c)) := by
  intro l
  induction l with
  | nil => simp [nnz_or_zip]
  | cons p l ih =>
    rcases p with ⟨pi, pv⟩
    rw [List.map_cons, nnz_or_zip]
    simp [ih]

/-- C1: for valid matrices of equal shape and storage and an operator with
`f 0 0 = 0`, the sparse-sparse combine stores exactly the union positions at
which `f` is non-zero, holding the operator value (missing operands read as
zero); in particular `add(A, scale(A, -1))` stores nothing. -/
theorem csmat_binop_sparsity_union [CommRing α] [DecidableEq α]
    (lhs rhs : CsMat α) (f : α → α → α)
    (hl : lhs.checkValid) (hr : rhs.checkValid)
    (hrw : lhs.nrows = rhs.nrows) (hcl : lhs.ncols = rhs.ncols)
    (hst : lhs.storage = rhs.storage) (hf : f 0 0 = 0)
    (hsize : lhs.nnz + rhs.nnz ≤ usizeMax / 2) :
    (∃ m, csmat_binop_same_storage_alloc f lhs rhs = .ok m ∧
      ∀ i < m.outer_dims, ∀ j v,
        ((j, v) ∈ m.sliceZip i ↔
          ((j ∈ (lhs.sliceZip i).map Prod.fst ∨
             j ∈ (rhs.sliceZip i).map Prod.fst) ∧
            v = f ((List.lookup j (lhs.sliceZip i)).getD 0)
                  ((List.lookup j (rhs.sliceZip i)).getD 0) ∧ v ≠ 0))) ∧
    (∃ z, add_mat_same_storage lhs (lhs.scale (-1)) = .ok z ∧
      z.nb_nonzero = 0) := by
  have houter := outer_dims_congr lhs rhs hrw hcl hst
  obtain ⟨l1, l2, l3, l4, l5, l6, l7⟩ := (checkValid_iff lhs).mp hl
  obtain ⟨r1, r2, r3, r4, r5, r6, r7⟩ := (checkValid_iff rhs).mp hr
  constructor
  · obtain ⟨heq, hvalid⟩ := csmat_binop_alloc_eq f lhs rhs hl hr hrw hcl hst
      (by omega)
    refine ⟨_, heq, ?_⟩
    intro i hi j v
    have hi' : i < lhs.outer_dims := hi
    rw [buildMat_sliceZip _ _ _ _ i (by simpa using hi'),
      getD_range_map _ _ _ hi']
    exact binop_slice_entries_mem f _ _
      (valid_slice_pairwise lhs hl i hi')
      (valid_slice_pairwise rhs hr i (houter ▸ hi')) j v
  · have hsv := scale_checkValid lhs (-1) hl
    have hrows0 : ∀ i, binop_slice_entries (fun x y => x + y)
        (lhs.sliceZip i) ((lhs.scale (-1)).sliceZip i) = [] := by
      intro i
      rw [scale_sliceZip]
      unfold binop_slice_entries
      rw [nnz_or_zip_self_map, List.filterMap_map]
      apply List.filterMap_eq_nil_iff.mpr
      intro p hp
      have hz : p.2 + p.2 * (-1) = 0 := by ring
      simp [Function.comp, binopValue, hz]
    have hmapnil : ((List.range lhs.outer_dims).map
        (fun i => binop_slice_entries (fun x y => x + y) (lhs.sliceZip i)
          ((lhs.scale (-1)).sliceZip i))) =
        (List.range lhs.outer_dims).map (fun _ => []) :=
      List.map_congr_left (fun i _ => hrows0 i)
    have hflat : (((List.range lhs.outer_dims).map
        (fun i => binop_slice_entries (fun x y => x + y) (lhs.sliceZip i)
          ((lhs.scale (-1)).sliceZip i))).flatten) = [] := by
      rw [hmapnil]
      simp
    obtain ⟨heq, hval⟩ := csmat_binop_alloc_eq_of_size (fun x y => x + y)
      lhs (lhs.scale (-1)) hl hsv rfl rfl rfl (by rw [hflat]; simp)
    refine ⟨_, heq, ?_⟩
    show (buildMat lhs.storage lhs.nrows lhs.ncols _).nb_nonzero = 0
    unfold CsMat.nb_nonzero buildMat
    simp only []
    rw [hflat]
    rfl

/-- Fixture: the first small CSR matrix of binop.rs `test_add1` (3×3,
entries (0,0) = 1 and (2,2) = 1), over ℤ. -/
def fixtureA : CsMat Int :=
  { storage := .CSR, nrows := 3, ncols := 3, nnz := 2,
    indptr := [0, 1, 1, 2], indices := [0, 2], data := [1, 1] }

/-- Fixture: the second small CSR matrix of binop.rs `test_add1` (3×3,
entries (0,0) = 1 and (1,1) = 1), over ℤ. -/
def fixtureB : CsMat Int :=
  { storage := .CSR, nrows := 3, ncols := 3, nnz := 2,
    indptr := [0, 1, 2, 2], indices := [0, 1], data := [1, 1] }

/-- Witness for C1 at the binop.rs `test_add1` fixtures with `f = (+)`. -/
theorem csmat_binop_sparsity_union_witness :
    (∃ m, csmat_binop_same_storage_alloc (fun x y => x + y) fixtureA
        fixtureB = .ok m ∧
      ∀ i < m.outer_dims, ∀ j v,
        ((j, v) ∈ m.sliceZip i ↔
          ((j ∈ (fixtureA.sliceZip i).map Prod.fst ∨
             j ∈ (fixtureB.sliceZip i).map Prod.fst) ∧
            v = ((List.lookup j (fixtureA.sliceZip i)).getD 0) +
                  ((List.lookup j (fixtureB.sliceZip i)).getD 0) ∧
            v ≠ 0))) ∧
    (∃ z, add_mat_same_storage fixtureA (fixtureA.scale (-1)) = .ok z ∧
      z.nb_nonzero = 0) :=
  csmat_binop_sparsity_union fixtureA fixtureB (fun x y => x + y)
    (by rfl) (by rfl) rfl rfl rfl (by norm_num) (by decide)

/-! Storage conversion (csmat.rs `raw::convert_mat_storage` and
`to_other_storage`). -/

/-- The (outer, inner, value) triples visited by the nested iteration
`for (outer_dim, vec) in mat.outer_iterator() { for (inner_dim, val) in
vec.iter() }`. -/
def CsMat.iterEntries (m : CsMat α) : List (Nat × Nat × α) :=
  ((List.range (m.indptr.length - 1)).map
    (fun o => (m.sliceZip o).map (fun p => (o, p.1, p.2)))).flatten

/-- Histogram pass of `convert_mat_storage`: for every visited entry,
increment the counter at its inner index (`indptr[inner_dim] += 1`).  The
Rust indexing panic cannot fire because every inner index is below the
buffer length for checked matrices. -/
def convert_histogram (entries : List (Nat × Nat × α)) (indptr : List Nat) :
    List Nat :=
  entries.foldl (fun ip e => ip.set e.2.1 (ip.getD e.2.1 0 + 1)) indptr

/-- Exclusive prefix-sum pass of `convert_mat_storage` (the in-place
`cumsum` loop). -/
def exclScan : List Nat → Nat → List Nat
  | [], _ => []
  | x :: xs, c => c :: exclScan xs (c + x)

/-- Scatter pass of `convert_mat_storage`: for each visited entry, place its
value and originating outer index at the running offset of its inner index,
then bump that offset. -/
def convert_scatter [Zero α] (entries : List (Nat × Nat × α))
    (st : List Nat × List Nat × List α) : List Nat × List Nat × List α :=
  entries.foldl (fun st e =>
    let dest := st.1.getD e.2.1 0
    (st.1.set e.2.1 (dest + 1),
     st.2.1.set dest e.1,
     st.2.2.set dest e.2.2)) st

/-- Offsets fix-up of `convert_mat_storage`: the final
`swap(iptr, &mut last)` loop rotates the offsets right with a zero prefix
(the old last offset is discarded). -/
def rotate_offsets : List Nat → List Nat
  | [] => []
  | l => 0 :: l.dropLast

/-- Copy-convert a CsMat into the opposite storage (csmat.rs
`raw::convert_mat_storage`).  The entry asserts (buffer lengths, all-zero
offsets) hold by construction at the only call site (`to_other_storage`);
the `assert_eq!(*last_iptr, mat.nb_nonzero())` after the prefix sum holds
for every matrix whose offsets start at 0 and end at nnz (see the
conversion lemmas). -/
def convert_mat_storage [Zero α] (mat : CsMat α) (indptr : List Nat)
    (indices : List Nat) (data : List α) : List Nat × List Nat × List α :=
  let hist := convert_histogram mat.iterEntries indptr
  let scanned := exclScan hist 0
  let st := convert_scatter mat.iterEntries (scanned, indices, data)
  (rotate_offsets st.1, st.2.1, st.2.2)

/-- Create a matrix mathematically equal to this one with the opposed
storage (csmat.rs `to_other_storage`): freshly allocated buffers (the data
buffer holds `N::default()`, which is zero for the numeric types in play),
conversion, then checked construction.  The `.unwrap()` panic is
unreachable for valid inputs (C9); the constructed matrix is returned
directly. -/
def CsMat.to_other_storage [Zero α] (m : CsMat α) : CsMat α :=
  let out := convert_mat_storage m (List.replicate (m.inner_dims + 1) 0)
      (List.replicate m.nb_nonzero 0) (List.replicate m.nb_nonzero (0 : α))
  { storage := m.storage.other_storage, nrows := m.rows, ncols := m.cols,
    nnz := out.2.2.length, indptr := out.1, indices := out.2.1,
    data := out.2.2 }

/-- Deep copy (csmat.rs `to_owned`); list values are immutable here, so the
copy is the identity. -/
def CsMat.to_owned (m : CsMat α) : CsMat α := m

/-- Create a new CSC matrix equivalent to this one (csmat.rs `to_csc`). -/
def CsMat.to_csc [Zero α] (m : CsMat α) : CsMat α :=
  match m.storage with
  | .CSR => m.to_other_storage
  | .CSC => m.to_owned

/-- Create a new CSR matrix equivalent to this one (csmat.rs `to_csr`). -/
def CsMat.to_csr [Zero α] (m : CsMat α) : CsMat α :=
  match m.storage with
  | .CSR => m.to_owned
  | .CSC => m.to_other_storage

/-- Count of visited entries with the given inner index (verification ghost
state for the conversion proof). -/
def cntInner (E : List (Nat × Nat × α)) (d : Nat) : Nat :=
  E.countP (fun e => e.2.1 == d)

/-- Start offset of inner-index class `d` in the scattered output. -/
def startOf (E : List (Nat × Nat × α)) (d : Nat) : Nat :=
  ((List.range d).map (cntInner E)).sum

/-- Per-inner-index output slices of the conversion: for each inner index
`d`, the (originating outer index, value) pairs of the entries with inner
index `d`, in visit order. -/
def CsMat.collectCols (m : CsMat α) : List (List (Nat × α)) :=
  (List.range m.inner_dims).map
    (fun d => (m.iterEntries.filter (fun e => e.2.1 == d)).map
      (fun e => (e.1, e.2.2)))

theorem getD_range_map' {β : Type} (f : Nat → β) (d : β) (n i : Nat)
    (h : i < n) : ((List.range n).map f).getD i d = f i := by
  rw [List.getD_eq_getElem _ _ (by simpa using h)]
  simp

theorem set_range_map {β : Type} (g : Nat → β) (n a : Nat) (ha : a < n)
    (v : β) :
    ((List.range n).map g).set a v =
      (List.range n).map (fun d => if d = a then v else g d) := by
  apply List.ext_getElem
  · simp
  · intro i hi1 hi2
    simp only [List.getElem_set, List.getElem_map, List.getElem_range]
    by_cases h : a = i
    · simp [h]
    · rw [if_neg (by omega), if_neg (fun hh : i = a => h hh.symm)]

theorem convert_histogram_spec (dim : Nat) :
    ∀ (E : List (Nat × Nat × α)), (∀ e ∈ E, e.2.1 < dim) →
      ∀ (g : Nat → Nat),
        convert_histogram E ((List.range (dim + 1)).map g) =
          (List.range (dim + 1)).map (fun d => g d + cntInner E d) := by
  intro E
  induction E with
  | nil =>
    intro _ g
    unfold convert_histogram cntInner
    simp
  | cons e E ih =>
    intro hE g
    have ha : e.2.1 < dim + 1 := by
      have := hE e (List.mem_cons_self _ _)
      omega
    show convert_histogram (e :: E) _ = _
    unfold convert_histogram
    rw [List.foldl_cons]
    rw [show (((List.range (dim + 1)).map g).set e.2.1
        (((List.range (dim + 1)).map g).getD e.2.1 0 + 1)) =
        (List.range (dim + 1)).map
          (fun d => if d = e.2.1 then g e.2.1 + 1 else g d) from by
      rw [getD_range_map' g 0 _ _ ha, set_range_map g _ _ ha]]
    have := ih (fun e' he' => hE e' (List.mem_cons_of_mem _ he'))
      (fun d => if d = e.2.1 then g e.2.1 + 1 else g d)
    unfold convert_histogram at this
    rw [this]
    apply List.map_congr_left
    intro d _
    unfold cntInner
    rw [List.countP_cons]
    by_cases h : d = e.2.1
    · subst h
      simp
      omega
    · have : (e.2.1 == d) = false := by
        simp
        exact fun hh => h hh.symm
      simp [h, this]

theorem exclScan_eq_scanl :
    ∀ (l : List Nat) (c : Nat), l ≠ [] →
      exclScan l c = List.scanl (· + ·) c l.dropLast
  | [], _, h => absurd rfl h
  | [x], c, _ => by simp [exclScan, List.scanl]
  | x :: y :: ys, c, _ => by
    rw [exclScan, exclScan_eq_scanl (y :: ys) (c + x) (by simp)]
    rw [show (x :: y :: ys).dropLast = x :: (y :: ys).dropLast from rfl]
    rw [List.scanl]

theorem scanl_add_eq_map_range (l : List Nat) :
    List.scanl (· + ·) 0 l =
      (List.range (l.length + 1)).map (fun i => (l.take i).sum) := by
  apply List.ext_getElem
  · simp [List.length_scanl]
  · intro i hi1 hi2
    rw [← List.getD_eq_getElem _ 0, ← List.getD_eq_getElem _ 0]
    rw [scanl_add_getD l 0 i (by simp [List.length_scanl] at hi1; omega)]
    rw [getD_range_map' _ 0 _ _ (by simpa using hi2)]
    omega

theorem sum_ite_range (n a : Nat) (ha : a < n) :
    ((List.range n).map (fun d => if a = d then 1 else 0)).sum = 1 := by
  induction n with
  | zero => omega
  | succ n ih =>
    rw [List.range_succ, List.map_append, List.sum_append]
    by_cases h : a = n
    · subst h
      have : ((List.range a).map (fun d => if a = d then 1 else 0)).sum = 0 := by
        apply List.sum_eq_zero
        intro x hx
        obtain ⟨d, hd, rfl⟩ := List.mem_map.mp hx
        rw [List.mem_range] at hd
        simp [Nat.ne_of_gt hd]
      simp [this]
    · have ha' : a < n := by omega
      rw [ih ha']
      simp [h]

theorem sum_cntInner_range (dim : Nat) (E : List (Nat × Nat × α))
    (hE : ∀ e ∈ E, e.2.1 < dim) :
    ((List.range dim).map (cntInner E)).sum = E.length := by
  induction E with
  | nil =>
    apply List.sum_eq_zero
    intro x hx
    obtain ⟨d, _, rfl⟩ := List.mem_map.mp hx
    simp [cntInner]
  | cons e E ih =>
    have hstep : ∀ d, cntInner (e :: E) d =
        cntInner E d + (if e.2.1 = d then 1 else 0) := by
      intro d
      unfold cntInner
      rw [List.countP_cons]
      by_cases h : e.2.1 = d <;> simp [h]
    rw [show (List.range dim).map (cntInner (e :: E)) =
        (List.range dim).map
          (fun d => cntInner E d + (if e.2.1 = d then 1 else 0)) from
      List.map_congr_left (fun d _ => hstep d)]
    rw [sum_map_add_distrib, ih (fun e' he' => hE e' (List.mem_cons_of_mem _ he'))]
    rw [sum_ite_range dim e.2.1 (hE e (List.mem_cons_self _ _))]
    simp

/-! Ghost-state description of the scatter pass: after processing a prefix
`A` of the full entry list `F`, every inner-index class `d` occupies the
region `[startOf F d, startOf F d + cntInner F d)`, filled left-to-right
with the processed entries of that class in visit order. -/

theorem cntInner_append (A B : List (Nat × Nat × α)) (d : Nat) :
    cntInner (A ++ B) d = cntInner A d + cntInner B d := by
  unfold cntInner
  rw [List.countP_append]

theorem cntInner_singleton_self (e : Nat × Nat × α) :
    cntInner [e] e.2.1 = 1 := by
  simp [cntInner]

theorem cntInner_singleton_ne (e : Nat × Nat × α) (d : Nat)
    (h : d ≠ e.2.1) : cntInner [e] d = 0 := by
  unfold cntInner
  rw [List.countP_eq_zero.mpr]
  intro x hx
  rw [List.mem_singleton] at hx
  subst hx
  simp
  exact fun hh => h hh.symm

/-- One region of the scattered output array under projection `π` with
filler `z`. -/
def scatterBlock {β : Type} (π : Nat × Nat × α → β) (z : β)
    (F A : List (Nat × Nat × α)) (d : Nat) : List β :=
  (A.filter (fun e => e.2.1 == d)).map π ++
    List.replicate (cntInner F d - cntInner A d) z

/-- Scattered output array under projection `π` after processing prefix
`A` of `F`. -/
def scatterArr {β : Type} (dim : Nat) (π : Nat × Nat × α → β) (z : β)
    (F A : List (Nat × Nat × α)) : List β :=
  ((List.range dim).map (scatterBlock π z F A)).flatten

/-- Running offsets after processing prefix `A` of `F`. -/
def scatterIndptr (dim : Nat) (F A : List (Nat × Nat × α)) : List Nat :=
  (List.range (dim + 1)).map (fun d => startOf F d + cntInner A d)

theorem scatterBlock_length {β : Type} (π : Nat × Nat × α → β) (z : β)
    (F A : List (Nat × Nat × α)) (d : Nat)
    (hle : cntInner A d ≤ cntInner F d) :
    (scatterBlock π z F A d).length = cntInner F d := by
  unfold scatterBlock
  rw [List.length_append, List.length_map, List.length_replicate]
  have hA : (List.filter (fun e => e.2.1 == d) A).length = cntInner A d := by
    unfold cntInner
    rw [List.countP_eq_length_filter]
  rw [hA]
  omega

theorem range_split (n a : Nat) (ha : a ≤ n) :
    List.range n = List.range a ++ List.range' a (n - a) := by
  rw [List.range_eq_range', List.range_eq_range' a]
  have h := List.range'_append 0 a (n - a) 1
  simp only [Nat.one_mul, Nat.zero_add] at h
  have h2 : List.range' 0 (n - a + a) = List.range' 0 n := by
    congr 1
    omega
  rw [← h2, ← h]

theorem flatten_map_range_split {β : Type} (f : Nat → List β) (n a : Nat)
    (ha : a < n) :
    ((List.range n).map f).flatten =
      ((List.range a).map f).flatten ++
        (f a ++ ((List.range' (a + 1) (n - a - 1)).map f).flatten) := by
  rw [range_split n a (le_of_lt ha),
    show n - a = (n - a - 1) + 1 from by omega, List.range'_succ]
  simp [List.map_append, List.flatten_append]

theorem scatterBlock_unchanged {β : Type} (π : Nat × Nat × α → β) (z : β)
    (F A : List (Nat × Nat × α)) (e : Nat × Nat × α) (d : Nat)
    (h : d ≠ e.2.1) :
    scatterBlock π z F (A ++ [e]) d = scatterBlock π z F A d := by
  unfold scatterBlock
  rw [List.filter_append, cntInner_append, cntInner_singleton_ne e d h]
  have : [e].filter (fun e' => e'.2.1 == d) = [] := by
    simp
    exact fun hh => h hh.symm
  rw [this]
  simp

theorem scatterBlock_push {β : Type} (π : Nat × Nat × α → β) (z : β)
    (F A : List (Nat × Nat × α)) (e : Nat × Nat × α)
    (hlt : cntInner A e.2.1 < cntInner F e.2.1) :
    scatterBlock π z F (A ++ [e]) e.2.1 =
      (A.filter (fun e' => e'.2.1 == e.2.1)).map π ++
        (π e :: List.replicate
          (cntInner F e.2.1 - cntInner A e.2.1 - 1) z) := by
  unfold scatterBlock
  rw [List.filter_append, cntInner_append, cntInner_singleton_self]
  have : [e].filter (fun e' => e'.2.1 == e.2.1) = [e] := by simp
  rw [this, List.map_append, List.append_assoc]
  simp only [List.map_cons, List.map_nil, List.singleton_append, Nat.sub_sub]

theorem scatterArr_prefix_length {β : Type} (π : Nat × Nat × α → β)
    (z : β) (F A : List (Nat × Nat × α)) (a : Nat)
    (hle : ∀ d, cntInner A d ≤ cntInner F d) :
    (((List.range a).map (scatterBlock π z F A)).flatten).length =
      startOf F a := by
  rw [List.length_flatten, List.map_map]
  unfold startOf
  apply congrArg
  apply List.map_congr_left
  intro d _
  exact scatterBlock_length π z F A d (hle d)

theorem scatterArr_set {β : Type} (dim : Nat) (π : Nat × Nat × α → β)
    (z : β) (F A : List (Nat × Nat × α)) (e : Nat × Nat × α)
    (B' : List (Nat × Nat × α)) (hFeq : F = A ++ e :: B')
    (ha : e.2.1 < dim) :
    (scatterArr dim π z F A).set
        (startOf F e.2.1 + cntInner A e.2.1) (π e) =
      scatterArr dim π z F (A ++ [e]) := by
  have hle : ∀ d, cntInner A d ≤ cntInner F d := by
    intro d
    rw [hFeq, cntInner_append]
    omega
  have hle' : ∀ d, cntInner (A ++ [e]) d ≤ cntInner F d := by
    intro d
    rw [hFeq, cntInner_append, cntInner_append]
    by_cases h : d = e.2.1
    · subst h
      rw [cntInner_singleton_self]
      unfold cntInner
      rw [List.countP_cons]
      simp
    · rw [cntInner_singleton_ne e d h]
      unfold cntInner
      rw [List.countP_cons]
      omega
  have hlt : cntInner A e.2.1 < cntInner F e.2.1 := by
    have := hle' e.2.1
    rw [cntInner_append, cntInner_singleton_self] at this
    omega
  unfold scatterArr
  rw [flatten_map_range_split _ dim e.2.1 ha,
    flatten_map_range_split _ dim e.2.1 ha]
  rw [List.set_append_right _ _
    (by rw [scatterArr_prefix_length π z F A e.2.1 hle]; omega)]
  rw [scatterArr_prefix_length π z F A e.2.1 hle]
  congr 1
  · apply congrArg List.flatten
    apply List.map_congr_left
    intro d hd
    rw [List.mem_range] at hd
    exact (scatterBlock_unchanged π z F A e d (by omega)).symm
  · rw [show startOf F e.2.1 + cntInner A e.2.1 - startOf F e.2.1 =
      cntInner A e.2.1 from by omega]
    have hP2 : ((List.range' (e.2.1 + 1) (dim - e.2.1 - 1)).map
        (scatterBlock π z F (A ++ [e]))) =
        ((List.range' (e.2.1 + 1) (dim - e.2.1 - 1)).map
          (scatterBlock π z F A)) := by
      apply List.map_congr_left
      intro d hd
      have hd' : e.2.1 + 1 ≤ d := (List.mem_range'_1.mp hd).1
      exact scatterBlock_unchanged π z F A e d (by omega)
    rw [hP2, scatterBlock_push π z F A e hlt]
    have hKpos : 1 ≤ cntInner F e.2.1 - cntInner A e.2.1 := by omega
    conv =>
      lhs
      rw [show scatterBlock π z F A e.2.1 =
        (A.filter (fun e' => e'.2.1 == e.2.1)).map π ++
          List.replicate (cntInner F e.2.1 - cntInner A e.2.1) z from rfl]
    rw [List.append_assoc]
    have hAlen : ((A.filter (fun e' => e'.2.1 == e.2.1)).map π).length =
        cntInner A e.2.1 := by
      rw [List.length_map]
      unfold cntInner
      rw [List.countP_eq_length_filter]
    rw [List.set_append_right _ _ (by rw [hAlen])]
    rw [show cntInner A e.2.1 -
      ((A.filter (fun e' => e'.2.1 == e.2.1)).map π).length = 0 from by
      rw [hAlen]; omega]
    rw [show cntInner F e.2.1 - cntInner A e.2.1 =
      (cntInner F e.2.1 - cntInner A e.2.1 - 1) + 1 from by omega,
      List.replicate_succ, List.cons_append, List.set_cons_zero]
    simp [List.append_assoc]

theorem scatterIndptr_getD (dim : Nat) (F A : List (Nat × Nat × α))
    (a : Nat) (ha : a < dim + 1) :
    (scatterIndptr dim F A).getD a 0 = startOf F a + cntInner A a :=
  getD_range_map' _ 0 _ _ ha

theorem scatterIndptr_set (dim : Nat) (F A : List (Nat × Nat × α))
    (e : Nat × Nat × α) (ha : e.2.1 < dim) :
    (scatterIndptr dim F A).set e.2.1
        (startOf F e.2.1 + cntInner A e.2.1 + 1) =
      scatterIndptr dim F (A ++ [e]) := by
  unfold scatterIndptr
  rw [set_range_map _ _ _ (by omega)]
  apply List.map_congr_left
  intro d _
  by_cases h : d = e.2.1
  · subst h
    rw [if_pos rfl, cntInner_append, cntInner_singleton_self]
    omega
  · rw [if_neg h, cntInner_append, cntInner_singleton_ne e d h]
    omega

theorem convert_scatter_cons [Zero α] (e : Nat × Nat × α)
    (B : List (Nat × Nat × α)) (st : List Nat × List Nat × List α) :
    convert_scatter (e :: B) st = convert_scatter B
      (st.1.set e.2.1 (st.1.getD e.2.1 0 + 1),
       st.2.1.set (st.1.getD e.2.1 0) e.1,
       st.2.2.set (st.1.getD e.2.1 0) e.2.2) := rfl

/-- Main correctness of the scatter pass: starting from the
prefix-sum offsets and zero-filled buffers, processing all of `F` fills
each inner-index region with its class entries in visit order and leaves
every offset advanced past its region. -/
theorem convert_scatter_spec [Zero α] (dim : Nat) :
    ∀ (B A F : List (Nat × Nat × α)), F = A ++ B →
      (∀ e ∈ F, e.2.1 < dim) →
      convert_scatter B
        (scatterIndptr dim F A,
         scatterArr dim (fun e => e.1) 0 F A,
         scatterArr dim (fun e => e.2.2) (0 : α) F A) =
      (scatterIndptr dim F F,
       scatterArr dim (fun e => e.1) 0 F F,
       scatterArr dim (fun e => e.2.2) (0 : α) F F) := by
  intro B
  induction B with
  | nil =>
    intro A F hF _
    rw [List.append_nil] at hF
    subst hF
    rfl
  | cons e B' ih =>
    intro A F hFeq hbound
    have ha : e.2.1 < dim := hbound e (by rw [hFeq]; simp)
    rw [convert_scatter_cons]
    have hdest : (scatterIndptr dim F A).getD e.2.1 0 =
        startOf F e.2.1 + cntInner A e.2.1 :=
      scatterIndptr_getD dim F A e.2.1 (by omega)
    have hstate :
        ((scatterIndptr dim F A).set e.2.1
            ((scatterIndptr dim F A).getD e.2.1 0 + 1),
         (scatterArr dim (fun e => e.1) 0 F A).set
            ((scatterIndptr dim F A).getD e.2.1 0) e.1,
         (scatterArr dim (fun e => e.2.2) (0 : α) F A).set
            ((scatterIndptr dim F A).getD e.2.1 0) e.2.2) =
        (scatterIndptr dim F (A ++ [e]),
         scatterArr dim (fun e => e.1) 0 F (A ++ [e]),
         scatterArr dim (fun e => e.2.2) (0 : α) F (A ++ [e])) := by
      rw [hdest, scatterIndptr_set dim F A e ha,
        scatterArr_set dim (fun e => e.1) 0 F A e B' hFeq ha,
        scatterArr_set dim (fun e => e.2.2) (0 : α) F A e B' hFeq ha]
    rw [hstate]
    exact ih (A ++ [e]) F (by rw [hFeq, List.append_assoc]; rfl) hbound

/-- Validity in the sense of the data-model invariants (spec §3): the
structure check passes and additionally the offsets start at 0 and end at
nnz.  `check_compressed_structure` alone does not enforce the two endpoint
conditions. -/
def CsMat.strictValid (m : CsMat α) : Prop :=
  m.checkValid ∧ m.indptr.head? = some 0 ∧ m.indptr.getLast? = some m.nnz

theorem sum_getD_diffs_eq :
    ∀ ip : List Nat, List.Chain' (· ≤ ·) ip →
      ip.head?.getD 0 ≤ ip.getLast?.getD 0 ∧
      ((List.range (ip.length - 1)).map
        (fun i => ip.getD (i + 1) 0 - ip.getD i 0)).sum =
        ip.getLast?.getD 0 - ip.head?.getD 0
  | [], _ => by simp
  | [a], _ => by simp
  | a :: b :: t, hc => by
    have IH := sum_getD_diffs_eq (b :: t) (List.chain'_cons.mp hc).2
    have hab : a ≤ b := (List.chain'_cons.mp hc).1
    constructor
    · simp only [List.head?_cons, Option.getD_some,
        List.getLast?_cons_cons] at IH ⊢
      omega
    · rw [show (a :: b :: t).length - 1 = ((b :: t).length - 1) + 1 from by
        simp]
      rw [List.range_succ_eq_map]
      simp only [List.map_cons, List.sum_cons, List.map_map]
      have hfun : ((List.range ((b :: t).length - 1)).map
          ((fun i => (a :: b :: t).getD (i + 1) 0 -
            (a :: b :: t).getD i 0) ∘ (· + 1))).sum =
          ((List.range ((b :: t).length - 1)).map
            (fun i => (b :: t).getD (i + 1) 0 - (b :: t).getD i 0)).sum := by
        apply congrArg
        apply List.map_congr_left
        intro i _
        simp [Function.comp]
      rw [hfun]
      simp only [List.getD_cons_succ, List.getD_cons_zero, List.head?_cons,
        Option.getD_some, List.getLast?_cons_cons] at IH ⊢
      omega

theorem chain'_getD_adjacent (ip : List Nat)
    (hc : List.Chain' (· ≤ ·) ip) (i : Nat) (hi : i + 1 < ip.length) :
    ip.getD i 0 ≤ ip.getD (i + 1) 0 := by
  rw [List.getD_eq_getElem _ _ (by omega), List.getD_eq_getElem _ _ hi]
  have := List.chain'_iff_get.mp hc i (by omega)
  simpa [List.get_eq_getElem] using this

theorem getD_le_foldr_max (ip : List Nat) (i : Nat) (hi : i < ip.length) :
    ip.getD i 0 ≤ ip.foldr max 0 := by
  have := (foldr_max_le_iff ip (ip.foldr max 0)).mp le_rfl
  rw [List.getD_eq_getElem _ _ hi]
  exact this _ (List.getElem_mem hi) 

theorem sliceZip_length_eq (m : CsMat α) (h : m.checkValid) (i : Nat)
    (hi : i + 1 < m.indptr.length) :
    (m.sliceZip i).length =
      m.indptr.getD (i + 1) 0 - m.indptr.getD i 0 := by
  obtain ⟨h1, h2, h3, h4, h5, h6, h7⟩ := (checkValid_iff m).mp h
  have hadj := chain'_getD_adjacent m.indptr h6 i hi
  have hub : m.indptr.getD (i + 1) 0 ≤ m.indices.length :=
    le_trans (getD_le_foldr_max m.indptr (i + 1) hi) h4
  unfold CsMat.sliceZip CsMat.sliceIndices CsMat.sliceData
  rw [List.length_zip, List.length_take, List.length_take, List.length_drop,
    List.length_drop, ← h2]
  omega

theorem iterEntries_bound (m : CsMat α) (h : m.checkValid) :
    ∀ e ∈ m.iterEntries, e.2.1 < m.inner_dims := by
  intro e he
  unfold CsMat.iterEntries at he
  rw [List.mem_flatten] at he
  obtain ⟨l, hl, hel⟩ := he
  obtain ⟨o, ho, rfl⟩ := List.mem_map.mp hl
  rw [List.mem_range] at ho
  obtain ⟨p, hp, rfl⟩ := List.mem_map.mp hel
  obtain ⟨h1, -, -, -, -, -, h7⟩ := (checkValid_iff m).mp h
  obtain ⟨j, v⟩ := p
  have hj : j ∈ m.sliceIndices o := (List.of_mem_zip hp).1
  exact (h7 o (by omega)).2 j hj

theorem iterEntries_length (m : CsMat α) (h : m.strictValid) :
    m.iterEntries.length = m.nb_nonzero := by
  obtain ⟨hv, hhead, hlast⟩ := h
  have hc := (checkValid_iff m).mp hv
  unfold CsMat.iterEntries
  rw [List.length_flatten, List.map_map]
  rw [show (List.range (m.indptr.length - 1)).map
      (List.length ∘ fun o => (m.sliceZip o).map (fun p => (o, p.1, p.2))) =
      (List.range (m.indptr.length - 1)).map
        (fun i => m.indptr.getD (i + 1) 0 - m.indptr.getD i 0) from
    List.map_congr_left (fun o ho => by
      rw [List.mem_range] at ho
      show ((m.sliceZip o).map _).length = _
      rw [List.length_map]
      exact sliceZip_length_eq m hv o (by omega))]
  rw [(sum_getD_diffs_eq m.indptr hc.2.2.2.2.2.1).2]
  rw [hhead, hlast]
  simp [CsMat.nb_nonzero]

theorem map_const_range {β : Type} (n : Nat) (z : β) :
    (List.range n).map (fun _ => z) = List.replicate n z := by
  apply List.ext_getElem
  · simp
  · intro i hi1 hi2
    simp

theorem flatten_map_replicate {β : Type} (L : List Nat) (z : β) :
    (L.map (fun c => List.replicate c z)).flatten =
      List.replicate L.sum z := by
  induction L with
  | nil => simp
  | cons c L ih =>
    rw [List.map_cons, List.flatten_cons, ih, List.sum_cons,
      List.replicate_add]

theorem startOf_succ (E : List (Nat × Nat × α)) (d : Nat) :
    startOf E (d + 1) = startOf E d + cntInner E d := by
  unfold startOf
  rw [List.range_succ, List.map_append, List.sum_append]
  simp

theorem rotate_offsets_ne_nil (l : List Nat) (h : l ≠ []) :
    rotate_offsets l = 0 :: l.dropLast := by
  cases l with
  | nil => exact absurd rfl h
  | cons x xs => rfl

theorem exclScan_cnt (dim : Nat) (E : List (Nat × Nat × α)) :
    exclScan ((List.range (dim + 1)).map (cntInner E)) 0 =
      (List.range (dim + 1)).map (startOf E) := by
  rw [exclScan_eq_scanl _ 0 (by simp)]
  rw [show ((List.range (dim + 1)).map (cntInner E)).dropLast =
      (List.range dim).map (cntInner E) from by
    rw [List.range_succ, List.map_append]
    simp]
  rw [scanl_add_eq_map_range, List.length_map, List.length_range]
  apply List.map_congr_left
  intro i hi
  rw [List.mem_range] at hi
  rw [← List.map_take, List.take_range, Nat.min_eq_left (by omega)]
  rfl

theorem scatterIndptr_nil (dim : Nat) (F : List (Nat × Nat × α)) :
    scatterIndptr dim F [] = (List.range (dim + 1)).map (startOf F) := by
  unfold scatterIndptr
  apply List.map_congr_left
  intro d _
  simp [cntInner]

theorem scatterArr_nil {β : Type} (dim : Nat) (π : Nat × Nat × α → β)
    (z : β) (F : List (Nat × Nat × α)) (hb : ∀ e ∈ F, e.2.1 < dim) :
    scatterArr dim π z F [] = List.replicate F.length z := by
  unfold scatterArr
  rw [show (List.range dim).map (scatterBlock π z F []) =
      (List.range dim).map (fun d => List.replicate (cntInner F d) z) from
    List.map_congr_left (fun d _ => by
      unfold scatterBlock
      simp [cntInner])]
  rw [show (List.range dim).map (fun d => List.replicate (cntInner F d) z) =
      ((List.range dim).map (cntInner F)).map
        (fun c => List.replicate c z) from by
    rw [List.map_map]
    rfl]
  rw [flatten_map_replicate, sum_cntInner_range dim F hb]

theorem scatterArr_full {β : Type} (dim : Nat) (π : Nat × Nat × α → β)
    (z : β) (F : List (Nat × Nat × α)) :
    scatterArr dim π z F F =
      ((List.range dim).map
        (fun d => (F.filter (fun e => e.2.1 == d)).map π)).flatten := by
  unfold scatterArr
  apply congrArg List.flatten
  apply List.map_congr_left
  intro d _
  unfold scatterBlock
  simp

theorem rotate_scatterIndptr (dim : Nat) (F : List (Nat × Nat × α)) :
    rotate_offsets (scatterIndptr dim F F) =
      (List.range (dim + 1)).map (startOf F) := by
  rw [rotate_offsets_ne_nil _ (by unfold scatterIndptr; simp)]
  unfold scatterIndptr
  rw [show ((List.range (dim + 1)).map
      (fun d => startOf F d + cntInner F d)).dropLast =
      (List.range dim).map (fun d => startOf F d + cntInner F d) from by
    rw [List.range_succ, List.map_append]
    simp]
  rw [List.range_succ_eq_map, List.map_cons, List.map_map]
  refine List.cons_eq_cons.mpr ⟨?_, ?_⟩
  · unfold startOf
    simp
  · apply List.map_congr_left
    intro d _
    exact (startOf_succ F d).symm

theorem convert_fields [Zero α] (m : CsMat α)
    (hb : ∀ e ∈ m.iterEntries, e.2.1 < m.inner_dims)
    (hlen : m.iterEntries.length = m.nb_nonzero) :
    convert_mat_storage m (List.replicate (m.inner_dims + 1) 0)
        (List.replicate m.nb_nonzero 0)
        (List.replicate m.nb_nonzero (0 : α)) =
      ((List.range (m.inner_dims + 1)).map (startOf m.iterEntries),
       scatterArr m.inner_dims (fun e => e.1) 0 m.iterEntries m.iterEntries,
       scatterArr m.inner_dims (fun e => e.2.2) (0 : α) m.iterEntries
         m.iterEntries) := by
  simp only [convert_mat_storage]
  rw [show List.replicate (m.inner_dims + 1) (0 : Nat) =
      (List.range (m.inner_dims + 1)).map (fun _ => 0) from
    (map_const_range _ _).symm]
  rw [convert_histogram_spec m.inner_dims m.iterEntries hb (fun _ => 0)]
  rw [show (List.range (m.inner_dims + 1)).map
      (fun d => 0 + cntInner m.iterEntries d) =
      (List.range (m.inner_dims + 1)).map (cntInner m.iterEntries) from
    List.map_congr_left (fun d _ => by omega)]
  rw [exclScan_cnt]
  rw [← scatterIndptr_nil m.inner_dims m.iterEntries]
  rw [← hlen]
  rw [← scatterArr_nil m.inner_dims (fun e => e.1) 0 m.iterEntries hb,
    ← scatterArr_nil m.inner_dims (fun e => e.2.2) (0 : α) m.iterEntries hb]
  rw [convert_scatter_spec m.inner_dims m.iterEntries [] m.iterEntries
    (by simp) hb]
  rw [rotate_scatterIndptr]
  rw [scatterIndptr_nil]

theorem collectCols_scanl (m : CsMat α) :
    List.scanl (· + ·) 0 (m.collectCols.map List.length) =
      (List.range (m.inner_dims + 1)).map (startOf m.iterEntries) := by
  unfold CsMat.collectCols
  rw [List.map_map]
  rw [show (List.range m.inner_dims).map
      (List.length ∘ fun d => ((m.iterEntries.filter
        (fun e => e.2.1 == d)).map (fun e => (e.1, e.2.2)))) =
      (List.range m.inner_dims).map (cntInner m.iterEntries) from
    List.map_congr_left (fun d _ => by
      simp [Function.comp, cntInner, List.countP_eq_length_filter])]
  rw [scanl_add_eq_map_range, List.length_map, List.length_range]
  apply List.map_congr_left
  intro i hi
  rw [List.mem_range] at hi
  rw [← List.map_take, List.take_range, Nat.min_eq_left (by omega)]
  rfl

theorem collectCols_flatten_fst (m : CsMat α) :
    m.collectCols.flatten.map Prod.fst =
      scatterArr m.inner_dims (fun e => e.1) 0 m.iterEntries
        m.iterEntries := by
  rw [scatterArr_full, List.map_flatten]
  unfold CsMat.collectCols
  rw [List.map_map]
  apply congrArg List.flatten
  apply List.map_congr_left
  intro d _
  simp [Function.comp]

theorem collectCols_flatten_snd [Zero α] (m : CsMat α) :
    m.collectCols.flatten.map Prod.snd =
      scatterArr m.inner_dims (fun e => e.2.2) (0 : α) m.iterEntries
        m.iterEntries := by
  rw [scatterArr_full, List.map_flatten]
  unfold CsMat.collectCols
  rw [List.map_map]
  apply congrArg List.flatten
  apply List.map_congr_left
  intro d _
  simp [Function.comp]

theorem to_other_storage_eq [Zero α] (m : CsMat α) (h : m.strictValid) :
    m.to_other_storage =
      buildMat m.storage.other_storage m.rows m.cols m.collectCols := by
  have hb := iterEntries_bound m h.1
  have hlen := iterEntries_length m h
  simp only [CsMat.to_other_storage]
  rw [convert_fields m hb hlen]
  unfold buildMat
  rw [CsMat.mk.injEq]
  refine ⟨rfl, rfl, rfl, ?_, ?_, ?_, ?_⟩
  · show (scatterArr m.inner_dims (fun e => e.2.2) (0 : α) m.iterEntries
      m.iterEntries).length = _
    rw [← collectCols_flatten_snd, List.length_map]
  · rw [collectCols_scanl]
  · rw [collectCols_flatten_fst]
  · rw [collectCols_flatten_snd]

theorem pairwise_filter_length_le (d : Nat) :
    ∀ l : List (Nat × α), List.Pairwise (· < ·) (l.map Prod.fst) →
      (l.filter (fun p => p.1 == d)).length ≤ 1
  | [], _ => by simp
  | p :: t, hp => by
    rw [List.map_cons, List.pairwise_cons] at hp
    rw [List.filter_cons]
    by_cases h : p.1 = d
    · rw [if_pos (by simp [h])]
      have ht : t.filter (fun q => q.1 == d) = [] := by
        rw [List.filter_eq_nil_iff]
        intro q hq
        have : p.1 < q.1 := hp.1 q.1 (List.mem_map.mpr ⟨q, hq, rfl⟩)
        simp only [beq_iff_eq]
        omega
      simp [ht]
    · rw [if_neg (by simp [h])]
      exact pairwise_filter_length_le d t hp.2

theorem map_const_of_len_le_one {β γ : Type} (l : List β) (o : γ)
    (h : l.length ≤ 1) :
    l.map (fun _ => o) = [] ∨ l.map (fun _ => o) = [o] := by
  match l with
  | [] => exact Or.inl rfl
  | [x] => exact Or.inr rfl
  | x :: y :: t => simp at h

theorem flatten_sublist (g : Nat → List Nat) :
    ∀ l : List Nat, (∀ o ∈ l, g o = [] ∨ g o = [o]) →
      (l.map g).flatten.Sublist l
  | [], _ => by simp
  | o :: t, hg => by
    rw [List.map_cons, List.flatten_cons]
    have ht := flatten_sublist g t
      (fun o' ho' => hg o' (List.mem_cons_of_mem _ ho'))
    rcases hg o (List.mem_cons_self _ _) with h | h
    · rw [h, List.nil_append]
      exact ht.trans (List.sublist_cons_self _ _)
    · rw [h, List.singleton_append]
      exact ht.cons₂ o

theorem iterEntries_fst_bound (m : CsMat α) :
    ∀ e ∈ m.iterEntries, e.1 < m.indptr.length - 1 := by
  intro e he
  unfold CsMat.iterEntries at he
  rw [List.mem_flatten] at he
  obtain ⟨l, hl, hel⟩ := he
  obtain ⟨o, ho, rfl⟩ := List.mem_map.mp hl
  rw [List.mem_range] at ho
  obtain ⟨p, _, rfl⟩ := List.mem_map.mp hel
  exact ho

theorem collectCols_row_fst (m : CsMat α)
    (hlen : m.indices.length = m.data.length) (d : Nat) :
    ((m.iterEntries.filter (fun e => e.2.1 == d)).map
        (fun e => (e.1, e.2.2))).map Prod.fst =
      ((List.range (m.indptr.length - 1)).map
        (fun o => ((m.sliceZip o).filter (fun p => p.1 == d)).map
          (fun _ => o))).flatten := by
  rw [List.map_map]
  unfold CsMat.iterEntries
  rw [List.filter_flatten, List.map_flatten, List.map_map, List.map_map]
  apply congrArg List.flatten
  apply List.map_congr_left
  intro o _
  show ((((m.sliceZip o).map (fun p => (o, p.1, p.2))).filter
    (fun e => e.2.1 == d)).map (Prod.fst ∘ fun e => (e.1, e.2.2))) = _
  rw [List.filter_map]
  rw [List.map_map]
  rfl

theorem collectCols_sorted (m : CsMat α) (h : m.checkValid) :
    ∀ row ∈ m.collectCols, List.Chain' (· < ·) (row.map Prod.fst) := by
  intro row hrow
  obtain ⟨h1, h2, h3, h4, h5, h6, h7⟩ := (checkValid_iff m).mp h
  unfold CsMat.collectCols at hrow
  obtain ⟨d, _, rfl⟩ := List.mem_map.mp hrow
  rw [collectCols_row_fst m h2 d, List.chain'_iff_pairwise]
  refine List.Pairwise.sublist
    (flatten_sublist _ (List.range (m.indptr.length - 1)) ?_)
    (List.pairwise_lt_range _)
  intro o ho
  rw [List.mem_range] at ho
  apply map_const_of_len_le_one
  apply pairwise_filter_length_le
  exact valid_slice_pairwise m h o (by omega)

theorem collectCols_bound (m : CsMat α) (h : m.checkValid) :
    ∀ row ∈ m.collectCols, ∀ p ∈ row, p.1 < m.outer_dims := by
  intro row hrow p hp
  obtain ⟨h1, -⟩ := (checkValid_iff m).mp h
  unfold CsMat.collectCols at hrow
  obtain ⟨d, _, rfl⟩ := List.mem_map.mp hrow
  obtain ⟨e, he, rfl⟩ := List.mem_map.mp hp
  have := iterEntries_fst_bound m e (List.mem_of_mem_filter he)
  omega

theorem scanl_add_head (ls : List Nat) (a : Nat) :
    (List.scanl (· + ·) a ls).head? = some a := by
  cases ls <;> rfl

theorem scanl_add_getLast (ls : List Nat) :
    (List.scanl (· + ·) 0 ls).getLast? = some ls.sum := by
  rw [List.getLast?_eq_getElem?]
  have hlen : (List.scanl (· + ·) 0 ls).length = ls.length + 1 :=
    List.length_scanl 0 ls
  rw [List.getElem?_eq_getElem (by omega)]
  rw [← List.getD_eq_getElem _ 0 (by omega), hlen]
  rw [Nat.add_sub_cancel, scanl_add_getD ls 0 ls.length le_rfl,
    List.take_length]
  simp

theorem nnz_le_half (m : CsMat α) (h : m.strictValid) :
    m.nnz ≤ usizeMax / 2 := by
  obtain ⟨hv, _, hlast⟩ := h
  obtain ⟨-, -, -, -, h5, -, -⟩ := (checkValid_iff m).mp hv
  have hmem : m.nnz ∈ m.indptr := List.mem_of_mem_getLast? hlast
  exact le_trans
    ((foldr_max_le_iff m.indptr (m.indptr.foldr max 0)).mp le_rfl _ hmem) h5

theorem collectCols_flatten_length (m : CsMat α) (h : m.checkValid) :
    m.collectCols.flatten.length = m.iterEntries.length := by
  rw [List.length_flatten]
  unfold CsMat.collectCols
  rw [List.map_map]
  rw [show (List.range m.inner_dims).map
      (List.length ∘ fun d => ((m.iterEntries.filter
        (fun e => e.2.1 == d)).map (fun e => (e.1, e.2.2)))) =
      (List.range m.inner_dims).map (cntInner m.iterEntries) from
    List.map_congr_left (fun d _ => by
      simp [Function.comp, cntInner, List.countP_eq_length_filter])]
  exact sum_cntInner_range _ _ (iterEntries_bound m h)

theorem buildMat_other_outer [Zero α] (m : CsMat α)
    (rows : List (List (Nat × α))) :
    (buildMat m.storage.other_storage m.rows m.cols rows).outer_dims =
        m.inner_dims ∧
      (buildMat m.storage.other_storage m.rows m.cols rows).inner_dims =
        m.outer_dims := by
  cases hs : m.storage <;>
    simp [buildMat, CompressedStorage.other_storage, CsMat.outer_dims,
      CsMat.inner_dims, CsMat.rows, CsMat.cols, hs]

theorem to_other_strictValid [Zero α] (m : CsMat α) (h : m.strictValid) :
    m.to_other_storage.strictValid := by
  rw [to_other_storage_eq m h]
  have hcc : m.collectCols.length = m.inner_dims := by
    unfold CsMat.collectCols
    simp
  refine ⟨?_, ?_, ?_⟩
  · apply buildMat_checkValid
    · rw [hcc, (buildMat_other_outer m m.collectCols).1]
    · exact collectCols_sorted m h.1
    · intro row hrow p hp
      rw [(buildMat_other_outer m m.collectCols).2]
      exact collectCols_bound m h.1 row hrow p hp
    · rw [collectCols_flatten_length m h.1, iterEntries_length m h]
      exact nnz_le_half m h
  · show (List.scanl (· + ·) 0 (m.collectCols.map List.length)).head? =
      some 0
    exact scanl_add_head _ 0
  · show (List.scanl (· + ·) 0 (m.collectCols.map List.length)).getLast? =
      some m.collectCols.flatten.length
    rw [scanl_add_getLast, List.length_flatten]

theorem flatten_eq_nil_of_forall {β : Type} (L : List (List β))
    (h : ∀ x ∈ L, x = []) : L.flatten = [] := by
  induction L with
  | nil => rfl
  | cons x t ih =>
    rw [List.flatten_cons, h x (List.mem_cons_self _ _), List.nil_append]
    exact ih (fun y hy => h y (List.mem_cons_of_mem _ hy))

theorem flatten_single {β : Type} (g : Nat → List β) :
    ∀ (n : Nat) (o : Nat), o < n → (∀ d < n, d ≠ o → g d = []) →
      ((List.range n).map g).flatten = g o
  | 0, o, ho, _ => by omega
  | n + 1, o, ho, hg => by
    rw [List.range_succ, List.map_append, List.flatten_append]
    by_cases hcase : o = n
    · subst hcase
      rw [flatten_eq_nil_of_forall _ (fun x hx => by
        obtain ⟨d, hd, rfl⟩ := List.mem_map.mp hx
        rw [List.mem_range] at hd
        exact hg d (by omega) (by omega))]
      simp
    · rw [show (List.map g [n]).flatten = g n from by simp]
      rw [show g n = [] from hg n (by omega) (fun hh => hcase hh.symm)]
      rw [flatten_single g n o (by omega)
        (fun d hd hdo => hg d (by omega) hdo)]
      simp

theorem iterEntries_filter_fst (m : CsMat α) (o : Nat)
    (ho : o < m.indptr.length - 1) :
    m.iterEntries.filter (fun e => e.1 == o) =
      (m.sliceZip o).map (fun p => (o, p.1, p.2)) := by
  unfold CsMat.iterEntries
  rw [List.filter_flatten, List.map_map]
  rw [flatten_single _ _ o ho (fun d _ hdo => by
    show ((m.sliceZip d).map (fun p => (d, p.1, p.2))).filter
      (fun e => e.1 == o) = []
    rw [List.filter_eq_nil_iff]
    intro x hx
    obtain ⟨p, _, rfl⟩ := List.mem_map.mp hx
    simp [hdo])]
  show ((m.sliceZip o).map (fun p => (o, p.1, p.2))).filter
    (fun e => e.1 == o) = _
  rw [List.filter_map]
  rw [show (m.sliceZip o).filter
      ((fun e => e.1 == o) ∘ fun p => (o, p.1, p.2)) = m.sliceZip o from by
    rw [List.filter_eq_self]
    intro p _
    simp]

theorem sorted_flatten_filter {β : Type} :
    ∀ (n s : Nat) (l : List (Nat × β)),
      List.Pairwise (· < ·) (l.map Prod.fst) →
      (∀ p ∈ l, s ≤ p.1 ∧ p.1 < s + n) →
      ((List.range' s n).map
        (fun d => l.filter (fun p => p.1 == d))).flatten = l
  | 0, s, l, _, hb => by
    match l with
    | [] => rfl
    | p :: t =>
      have := hb p (List.mem_cons_self _ _)
      omega
  | n + 1, s, l, hs, hb => by
    rw [show List.range' s (n + 1) = s :: List.range' (s + 1) n from rfl,
      List.map_cons, List.flatten_cons]
    cases l with
    | nil =>
      rw [List.filter_nil, List.nil_append]
      exact sorted_flatten_filter n (s + 1) [] (by simp) (by simp)
    | cons p t =>
      have hs' := hs
      rw [List.map_cons, List.pairwise_cons] at hs'
      have hps := hb p (List.mem_cons_self _ _)
      by_cases hcase : p.1 = s
      · have hhead : (p :: t).filter (fun q => q.1 == s) = [p] := by
          rw [List.filter_cons, if_pos (by simp [hcase])]
          rw [List.filter_eq_nil_iff.mpr (fun q hq => by
            have := hs'.1 q.1 (List.mem_map.mpr ⟨q, hq, rfl⟩)
            simp only [beq_iff_eq]
            omega)]
        rw [hhead]
        have htail : (List.range' (s + 1) n).map
            (fun d => (p :: t).filter (fun q => q.1 == d)) =
            (List.range' (s + 1) n).map
              (fun d => t.filter (fun q => q.1 == d)) := by
          apply List.map_congr_left
          intro d hd
          rw [List.mem_range'_1] at hd
          rw [List.filter_cons, if_neg (by simp only [beq_iff_eq]; omega)]
        rw [htail, sorted_flatten_filter n (s + 1) t hs'.2 (fun q hq => by
          have hq1 := hs'.1 q.1 (List.mem_map.mpr ⟨q, hq, rfl⟩)
          have hq2 := hb q (List.mem_cons_of_mem _ hq)
          omega)]
        rfl
      · have hgt : s < p.1 := by omega
        have hhead : (p :: t).filter (fun q => q.1 == s) = [] := by
          rw [List.filter_eq_nil_iff]
          intro q hq
          rcases List.mem_cons.mp hq with rfl | hq'
          · simp only [beq_iff_eq]
            omega
          · have := hs'.1 q.1 (List.mem_map.mpr ⟨q, hq', rfl⟩)
            simp only [beq_iff_eq]
            omega
        rw [hhead, List.nil_append]
        exact sorted_flatten_filter n (s + 1) (p :: t) hs (fun q hq => by
          rcases List.mem_cons.mp hq with rfl | hq'
          · have := hb q (List.mem_cons_self _ _)
            omega
          · have h1 := hs'.1 q.1 (List.mem_map.mpr ⟨q, hq', rfl⟩)
            have h2 := hb q hq
            omega)

theorem sorted_eq_flatten_filter {β : Type} (l : List (Nat × β)) (n : Nat)
    (hs : List.Pairwise (· < ·) (l.map Prod.fst))
    (hb : ∀ p ∈ l, p.1 < n) :
    ((List.range n).map (fun d => l.filter (fun p => p.1 == d))).flatten =
      l := by
  rw [List.range_eq_range']
  exact sorted_flatten_filter n 0 l hs
    (fun p hp => ⟨Nat.zero_le _, by simpa using hb p hp⟩)

theorem buildMat_iterEntries (S : CompressedStorage) (r c : Nat)
    (rows : List (List (Nat × α))) :
    (buildMat S r c rows).iterEntries =
      ((List.range rows.length).map
        (fun d => (rows.getD d []).map (fun p => (d, p.1, p.2)))).flatten := by
  show ((List.range ((buildMat S r c rows).indptr.length - 1)).map
      (fun o => ((buildMat S r c rows).sliceZip o).map
        (fun p => (o, p.1, p.2)))).flatten = _
  rw [show (buildMat S r c rows).indptr.length - 1 = rows.length from by
    show (List.scanl (· + ·) 0 (rows.map List.length)).length - 1 = _
    rw [List.length_scanl]
    simp]
  apply congrArg List.flatten
  apply List.map_congr_left
  intro d hd
  rw [List.mem_range] at hd
  rw [buildMat_sliceZip _ _ _ _ d hd]

theorem collectCols_roundtrip [Zero α] (m : CsMat α) (h : m.strictValid) :
    m.to_other_storage.collectCols =
      (List.range m.outer_dims).map m.sliceZip := by
  rw [to_other_storage_eq m h]
  obtain ⟨h1, h2, h3, h4, h5, h6, h7⟩ := (checkValid_iff m).mp h.1
  have hcc : m.collectCols.length = m.inner_dims := by
    unfold CsMat.collectCols
    simp
  show (List.range ((buildMat m.storage.other_storage m.rows m.cols
      m.collectCols).inner_dims)).map
      (fun o => (((buildMat m.storage.other_storage m.rows m.cols
        m.collectCols).iterEntries).filter (fun e => e.2.1 == o)).map
        (fun e => (e.1, e.2.2))) = _
  rw [(buildMat_other_outer m m.collectCols).2]
  apply List.map_congr_left
  intro o ho
  rw [List.mem_range] at ho
  rw [buildMat_iterEntries, hcc]
  rw [show (List.range m.inner_dims).map
      (fun d => (m.collectCols.getD d []).map (fun p => (d, p.1, p.2))) =
      (List.range m.inner_dims).map
        (fun d => (m.iterEntries.filter (fun e => e.2.1 == d)).map
          (fun e => (d, e.1, e.2.2))) from
    List.map_congr_left (fun d hd => by
      rw [List.mem_range] at hd
      show (m.collectCols.getD d []).map (fun p => (d, p.1, p.2)) = _
      rw [show m.collectCols.getD d [] =
          (m.iterEntries.filter (fun e => e.2.1 == d)).map
            (fun e => (e.1, e.2.2)) from by
        unfold CsMat.collectCols
        rw [getD_range_map' _ _ _ _ hd]]
      rw [List.map_map]
      rfl)]
  rw [List.filter_flatten, List.map_flatten, List.map_map, List.map_map]
  rw [show (List.range m.inner_dims).map
      ((List.map (fun e => (e.1, e.2.2)) ∘
        List.filter (fun e => e.2.1 == o)) ∘
        fun d => (m.iterEntries.filter (fun e => e.2.1 == d)).map
          (fun e => (d, e.1, e.2.2))) =
      (List.range m.inner_dims).map
        (fun d => (m.sliceZip o).filter (fun p => p.1 == d)) from
    List.map_congr_left (fun d hd => by
      rw [List.mem_range] at hd
      show (((m.iterEntries.filter (fun e => e.2.1 == d)).map
        (fun e => (d, e.1, e.2.2))).filter (fun e => e.2.1 == o)).map
        (fun e => (e.1, e.2.2)) = _
      rw [List.filter_map, List.map_map]
      show ((m.iterEntries.filter (fun e => e.2.1 == d)).filter
        (fun e => e.1 == o)).map (fun e => ((d, e.2.2) : Nat × α)) = _
      rw [List.filter_filter]
      rw [List.filter_congr (fun e _ => by
        show ((e.1 == o) && (e.2.1 == d)) = ((e.2.1 == d) && (e.1 == o))
        exact Bool.and_comm _ _)]
      rw [← List.filter_filter]
      rw [iterEntries_filter_fst m o (by omega)]
      rw [List.filter_map, List.map_map]
      show ((m.sliceZip o).filter (fun p => p.1 == d)).map
        (fun p => ((d, p.2) : Nat × α)) = _
      apply List.ext_getElem (by simp)
      intro i hi1 hi2
      rw [List.getElem_map]
      have hmem : ((m.sliceZip o).filter (fun p => p.1 == d))[i] ∈
          (m.sliceZip o).filter (fun p => p.1 == d) :=
        List.getElem_mem hi2
      have := List.of_mem_filter hmem
      rw [beq_iff_eq] at this
      rw [Prod.ext_iff]
      exact ⟨this.symm, rfl⟩)]
  exact sorted_eq_flatten_filter (m.sliceZip o) m.inner_dims
    (valid_slice_pairwise m h.1 o ho)
    (fun p hp => valid_slice_bound m h.1 o ho p.1
      (List.mem_map.mpr ⟨p, hp, rfl⟩))

theorem chain'_getD_mono (ip : List Nat) (hc : List.Chain' (· ≤ ·) ip)
    (i j : Nat) (hij : i ≤ j) :
    j < ip.length → ip.getD i 0 ≤ ip.getD j 0 := by
  induction j, hij using Nat.le_induction with
  | base => intro _; exact le_rfl
  | succ n hn ih =>
    intro hj
    exact le_trans (ih (by omega)) (chain'_getD_adjacent ip hc n hj)

theorem sum_getD_diffs_upto (ip : List Nat)
    (hc : List.Chain' (· ≤ ·) ip) (i : Nat) (hi : i < ip.length) :
    ((List.range i).map
      (fun k => ip.getD (k + 1) 0 - ip.getD k 0)).sum =
      ip.getD i 0 - ip.getD 0 0 := by
  induction i with
  | zero => simp
  | succ n ih =>
    rw [List.range_succ, List.map_append, List.sum_append]
    rw [ih (by omega)]
    have hmono := chain'_getD_mono ip hc 0 n (by omega) (by omega)
    have hadj := chain'_getD_adjacent ip hc n hi
    simp only [List.map_cons, List.map_nil, List.sum_cons, List.sum_nil]
    omega

theorem getLast_getD_eq (l : List Nat) (h : l ≠ []) :
    l.getLast?.getD 0 = l.getD (l.length - 1) 0 := by
  have hpos : 0 < l.length := List.length_pos.mpr h
  rw [List.getLast?_eq_getElem?, List.getElem?_eq_getElem (by omega)]
  rw [List.getD_eq_getElem _ _ (by omega)]
  rfl

theorem flatten_segments {β : Type} :
    ∀ (ip : List Nat) (xs : List β), List.Chain' (· ≤ ·) ip →
      (∀ b ∈ ip, b ≤ xs.length) →
      ((List.range (ip.length - 1)).map
        (fun i => (xs.drop (ip.getD i 0)).take
          (ip.getD (i + 1) 0 - ip.getD i 0))).flatten =
      (xs.take (ip.getLast?.getD 0)).drop (ip.head?.getD 0)
  | [], xs, _, _ => by simp
  | [a], xs, _, _ => by
    simp only [List.length_cons, List.length_nil]
    rw [show (0 + 1 - 1 : Nat) = 0 from rfl]
    rw [List.range_zero, List.map_nil, List.flatten_nil]
    refine (List.drop_eq_nil_of_le ?_).symm
    rw [List.length_take]
    simp
  | a :: b :: t, xs, hc, hb => by
    have hc' := List.chain'_cons.mp hc
    rw [show (a :: b :: t).length - 1 = ((b :: t).length - 1) + 1 from by
      simp]
    rw [List.range_succ_eq_map, List.map_cons, List.flatten_cons,
      List.map_map]
    have hshift : (List.range ((b :: t).length - 1)).map
        ((fun i => (xs.drop ((a :: b :: t).getD i 0)).take
          ((a :: b :: t).getD (i + 1) 0 -
            (a :: b :: t).getD i 0)) ∘ Nat.succ) =
        (List.range ((b :: t).length - 1)).map
          (fun i => (xs.drop ((b :: t).getD i 0)).take
            ((b :: t).getD (i + 1) 0 - (b :: t).getD i 0)) :=
      List.map_congr_left (fun i _ => by
        simp [Function.comp, List.getD_cons_succ])
    rw [hshift, flatten_segments (b :: t) xs hc'.2
      (fun x hx => hb x (List.mem_cons_of_mem _ hx))]
    simp only [List.getD_cons_zero, List.getD_cons_succ,
      List.getLast?_cons_cons, List.head?_cons, Option.getD_some]
    have hab : a ≤ b := hc'.1
    have hL : b ≤ ((b :: t).getLast?).getD 0 := by
      rw [getLast_getD_eq _ (List.cons_ne_nil _ _)]
      exact chain'_getD_mono (b :: t) hc'.2 0 ((b :: t).length - 1)
        (by omega) (by simp)
    conv_rhs => rw [← List.take_append_drop (b - a)
      ((xs.take (((b :: t).getLast?).getD 0)).drop a)]
    congr 1
    · rw [List.drop_take, List.take_take,
        Nat.min_eq_left (by omega)]
    · rw [List.drop_drop]
      congr 1
      omega

theorem sliceZip_map_snd (m : CsMat α)
    (hlen : m.indices.length = m.data.length) (i : Nat) :
    (m.sliceZip i).map Prod.snd = m.sliceData i := by
  unfold CsMat.sliceZip
  apply List.map_snd_zip
  unfold CsMat.sliceIndices CsMat.sliceData
  simp only [List.length_take, List.length_drop, hlen]
  exact le_refl _

theorem indptr_getD_zero (m : CsMat α) (h : m.indptr.head? = some 0) :
    m.indptr.getD 0 0 = 0 := by
  cases hip : m.indptr with
  | nil => rw [hip] at h; cases h
  | cons x xs =>
    rw [hip] at h
    rw [List.head?_cons, Option.some.injEq] at h
    rw [List.getD_cons_zero]
    exact h

theorem indptr_mem_le_indices (m : CsMat α) (h : m.checkValid) :
    ∀ b ∈ m.indptr, b ≤ m.indices.length := by
  obtain ⟨-, -, -, h4, -, -, -⟩ := (checkValid_iff m).mp h
  intro b hb
  exact le_trans
    ((foldr_max_le_iff m.indptr (m.indptr.foldr max 0)).mp le_rfl b hb) h4

theorem buildMat_reconstruct [Zero α] (m : CsMat α) (h : m.strictValid) :
    buildMat m.storage m.nrows m.ncols
      ((List.range m.outer_dims).map m.sliceZip) = m := by
  have hhead := h.2.1
  have hlast := h.2.2
  obtain ⟨h1, h2, h3, h4, h5, h6, h7⟩ := (checkValid_iff m).mp h.1
  have hN : m.outer_dims = m.indptr.length - 1 := by omega
  have h0 := indptr_getD_zero m hhead
  have hlens : ((List.range m.outer_dims).map m.sliceZip).map List.length =
      (List.range m.outer_dims).map
        (fun i => m.indptr.getD (i + 1) 0 - m.indptr.getD i 0) := by
    rw [List.map_map]
    apply List.map_congr_left
    intro i hi
    rw [List.mem_range] at hi
    exact sliceZip_length_eq m h.1 i (by omega)
  have hixeq : ((List.range m.outer_dims).map m.sliceZip).flatten.map
      Prod.fst = m.indices := by
    rw [List.map_flatten, List.map_map]
    rw [show (List.range m.outer_dims).map (List.map Prod.fst ∘ m.sliceZip) =
        (List.range m.outer_dims).map m.sliceIndices from
      List.map_congr_left (fun i _ => sliceZip_map_fst m h2 i)]
    rw [show (List.range m.outer_dims).map m.sliceIndices =
        (List.range (m.indptr.length - 1)).map
          (fun i => (m.indices.drop (m.indptr.getD i 0)).take
            (m.indptr.getD (i + 1) 0 - m.indptr.getD i 0)) from by
      rw [hN]
      rfl]
    rw [flatten_segments m.indptr m.indices h6 (indptr_mem_le_indices m h.1)]
    rw [hhead, hlast]
    show (m.indices.take m.nnz).drop 0 = m.indices
    rw [List.drop_zero, ← h3, List.take_length]
  have hdeq : ((List.range m.outer_dims).map m.sliceZip).flatten.map
      Prod.snd = m.data := by
    rw [List.map_flatten, List.map_map]
    rw [show (List.range m.outer_dims).map (List.map Prod.snd ∘ m.sliceZip) =
        (List.range m.outer_dims).map m.sliceData from
      List.map_congr_left (fun i _ => sliceZip_map_snd m h2 i)]
    rw [show (List.range m.outer_dims).map m.sliceData =
        (List.range (m.indptr.length - 1)).map
          (fun i => (m.data.drop (m.indptr.getD i 0)).take
            (m.indptr.getD (i + 1) 0 - m.indptr.getD i 0)) from by
      rw [hN]
      rfl]
    rw [flatten_segments m.indptr m.data h6
      (fun b hb => le_trans (indptr_mem_le_indices m h.1 b hb) (by omega))]
    rw [hhead, hlast]
    show (m.data.take m.nnz).drop 0 = m.data
    rw [List.drop_zero, ← h3, h2, List.take_length]
  have hipeq : List.scanl (· + ·) 0
      (((List.range m.outer_dims).map m.sliceZip).map List.length) =
      m.indptr := by
    rw [hlens]
    apply List.ext_getElem
    · rw [List.length_scanl, List.length_map, List.length_range]
      omega
    · intro i hi1 hi2
      rw [← List.getD_eq_getElem _ 0 hi1, ← List.getD_eq_getElem _ 0 hi2]
      rw [scanl_add_getD _ 0 i (by
        rw [List.length_map, List.length_range]
        rw [List.length_scanl, List.length_map, List.length_range] at hi1
        omega)]
      rw [← List.map_take, List.take_range, Nat.min_eq_left (by omega)]
      rw [sum_getD_diffs_upto m.indptr h6 i hi2]
      omega
  have hnz : ((List.range m.outer_dims).map m.sliceZip).flatten.length =
      m.nnz := by
    have := congrArg List.length hixeq
    rw [List.length_map] at this
    omega
  cases m with
  | mk storage nrows ncols nnz indptr indices data =>
    unfold buildMat
    rw [CsMat.mk.injEq]
    exact ⟨rfl, rfl, rfl, hnz, hipeq, hixeq, hdeq⟩

/-- C2: for every valid matrix (spec §3 validity: the structural check
passes and the offsets start at 0 and end at nnz), applying the storage
conversion twice yields the original matrix exactly — same storage order,
dimensions, nnz, offsets, indices and values. -/
theorem to_other_storage_roundtrip [Zero α] (m : CsMat α)
    (h : m.strictValid) :
    m.to_other_storage.to_other_storage = m := by
  have hM := to_other_strictValid m h
  rw [to_other_storage_eq m.to_other_storage hM]
  rw [collectCols_roundtrip m h]
  show buildMat m.storage.other_storage.other_storage m.nrows m.ncols
    ((List.range m.outer_dims).map m.sliceZip) = m
  rw [show m.storage.other_storage.other_storage = m.storage from by
    cases m.storage <;> rfl]
  exact buildMat_reconstruct m h

/-- Concrete 3×4 CSR matrix used to witness the round-trip theorem. -/
def fixtureC : CsMat Int :=
  { storage := .CSR, nrows := 3, ncols := 4, nnz := 6,
    indptr := [0, 2, 5, 6], indices := [2, 3, 1, 2, 3, 3],
    data := [1, 2, 3, 4, 5, 6] }

theorem to_other_storage_roundtrip_witness :
    fixtureC.strictValid ∧
      fixtureC.to_other_storage.to_other_storage = fixtureC :=
  ⟨⟨by rfl, by rfl, by rfl⟩,
    to_other_storage_roundtrip fixtureC ⟨by rfl, by rfl, by rfl⟩⟩

theorem scalar_mul_mat_eq_scale [Mul α] [Zero α] (m : CsMat α) (c : α)
    (hip : m.indptr.length = m.outer_dims + 1)
    (hind : m.indices.length = m.nnz)
    (hdat : m.data.length = m.nnz) :
    scalar_mul_mat m c = m.scale c := by
  have hdata' :
      List.zipWith (fun _ s => s * c) (List.replicate m.nb_nonzero (0 : α))
          m.data ++
        (List.replicate m.nb_nonzero (0 : α)).drop m.data.length =
        m.data.map (· * c) := by
    rw [zipWith_const_snd_eq_map (· * c) _ _
        (by simp [CsMat.nb_nonzero, hdat]),
      List.drop_eq_nil_of_le (by simp [CsMat.nb_nonzero, hdat]),
      List.append_nil]
  have hiptr : zipOverwrite (List.replicate (m.outer_dims + 1) 0) m.indptr =
      m.indptr := zipOverwrite_eq_src _ _ (by simp [hip])
  have hidx : zipOverwrite (List.replicate m.nb_nonzero 0) m.indices =
      m.indices := zipOverwrite_eq_src _ _ (by simp [CsMat.nb_nonzero, hind])
  simp only [scalar_mul_mat, scalar_mul_mat_raw, hdata', hiptr, hidx]
  simp only [CsMat.scale]
  rw [CsMat.mk.injEq]
  refine ⟨rfl, rfl, rfl, ?_, rfl, rfl, rfl⟩
  rw [List.length_map]
  exact hdat

/-- C9: the matrices built by the sparse-sparse elementwise combine, by
storage conversion (`to_other_storage`, `to_csr`, `to_csc`) and by scalar
multiplication all pass the full structural check, and the internal checked
constructions (`new_owned(..).unwrap()`) on the conversion and scalar paths
return Ok — the unwrap panic is unreachable for valid inputs. -/
theorem constructed_matrices_valid [CommRing α] [DecidableEq α]
    (f : α → α → α) (lhs rhs m : CsMat α) (c : α)
    (hl : lhs.checkValid) (hr : rhs.checkValid)
    (hrw : lhs.nrows = rhs.nrows) (hcl : lhs.ncols = rhs.ncols)
    (hst : lhs.storage = rhs.storage)
    (hsize : lhs.nnz + rhs.nnz ≤ usizeMax / 2)
    (hm : m.strictValid) :
    (∃ out, csmat_binop_same_storage_alloc f lhs rhs = .ok out ∧
        out.checkValid) ∧
      (m.to_other_storage.checkValid ∧
        CsMat.new_owned m.storage.other_storage m.rows m.cols
            m.to_other_storage.indptr m.to_other_storage.indices
            m.to_other_storage.data = .ok m.to_other_storage) ∧
      m.to_csr.checkValid ∧ m.to_csc.checkValid ∧
      (scalar_mul_mat m c).checkValid ∧
      CsMat.new_owned m.storage m.rows m.cols (scalar_mul_mat m c).indptr
          (scalar_mul_mat m c).indices (scalar_mul_mat m c).data =
        .ok (scalar_mul_mat m c) := by
  obtain ⟨l1, l2, l3, -, -, -, -⟩ := (checkValid_iff lhs).mp hl
  obtain ⟨r1, r2, r3, -, -, -, -⟩ := (checkValid_iff rhs).mp hr
  obtain ⟨m1, m2, m3, -, -, -, -⟩ := (checkValid_iff m).mp hm.1
  have hOK := csmat_binop_alloc_eq f lhs rhs hl hr hrw hcl hst (by omega)
  have hconv := to_other_strictValid m hm
  have hsm : scalar_mul_mat m c = m.scale c :=
    scalar_mul_mat_eq_scale m c m1 m3 (by omega)
  have hsmv : (scalar_mul_mat m c).checkValid := by
    rw [hsm]
    exact scale_checkValid m c hm.1
  refine ⟨⟨_, hOK.1, hOK.2⟩, ⟨hconv.1, ?_⟩, ?_, ?_, hsmv, ?_⟩
  · exact new_owned_eq_ok _ _ _ _ _ _ hconv.1
  · cases hs : m.storage
    · rw [show m.to_csr = m from by unfold CsMat.to_csr; rw [hs]; rfl]
      exact hm.1
    · rw [show m.to_csr = m.to_other_storage from by
        unfold CsMat.to_csr
        rw [hs]]
      exact hconv.1
  · cases hs : m.storage
    · rw [show m.to_csc = m.to_other_storage from by
        unfold CsMat.to_csc
        rw [hs]]
      exact hconv.1
    · rw [show m.to_csc = m from by unfold CsMat.to_csc; rw [hs]; rfl]
      exact hm.1
  · exact new_owned_eq_ok _ _ _ _ _ _ hsmv

theorem constructed_matrices_valid_witness :
    (∃ out, csmat_binop_same_storage_alloc (fun x y => x + y) fixtureA
        fixtureB = .ok out ∧ out.checkValid) ∧
      (fixtureC.to_other_storage.checkValid ∧
        CsMat.new_owned fixtureC.storage.other_storage fixtureC.rows
            fixtureC.cols fixtureC.to_other_storage.indptr
            fixtureC.to_other_storage.indices
            fixtureC.to_other_storage.data = .ok fixtureC.to_other_storage) ∧
      fixtureC.to_csr.checkValid ∧ fixtureC.to_csc.checkValid ∧
      (scalar_mul_mat fixtureC (2 : Int)).checkValid ∧
      CsMat.new_owned fixtureC.storage fixtureC.rows fixtureC.cols
          (scalar_mul_mat fixtureC (2 : Int)).indptr
          (scalar_mul_mat fixtureC (2 : Int)).indices
          (scalar_mul_mat fixtureC (2 : Int)).data =
        .ok (scalar_mul_mat fixtureC (2 : Int)) :=
  constructed_matrices_valid (fun x y => x + y) fixtureA fixtureB fixtureC
    (2 : Int) (by rfl) (by rfl) rfl rfl rfl (by decide)
    ⟨by rfl, by rfl, by rfl⟩

/-! Sparse-dense elementwise combine (binop.rs
`csmat_binop_dense_same_ordering_raw`, `add_dense_mat_same_ordering`,
`mul_dense_mat_same_ordering`).  The dense two-dimensional array type lives
outside the given sources; it is modelled from the spec (§6 dense array
collaborator): a shape, a memory-ordering tag (row-major C / column-major F
/ unordered) and a contiguous element buffer, whose outer-axis iteration
yields contiguous chunks of the inner-dimension length. -/

/-- Modelled from the spec: the memory-ordering tag of a dense array
(row-major C, column-major F, or unordered). -/
inductive StorageOrder where
  | C
  | F
  | Unordered
  deriving DecidableEq, Repr

/-- Modelled from the spec: the dense two-dimensional array collaborator. -/
structure DenseMat (α : Type) where
  rows : Nat
  cols : Nat
  ordering : StorageOrder
  data : List α
  deriving DecidableEq, Repr

/-- Inner-dimension length of a dense array's outer-axis chunks. -/
def DenseMat.innerLen (d : DenseMat α) : Nat :=
  match d.ordering with
  | .C => d.cols
  | .F => d.rows
  | .Unordered => 0

/-- Number of outer-axis chunks of a dense array. -/
def DenseMat.outerCount (d : DenseMat α) : Nat :=
  match d.ordering with
  | .C => d.rows
  | .F => d.cols
  | .Unordered => 0

/-- The i-th outer-axis chunk of a dense array (a row for C ordering, a
column for F ordering). -/
def DenseMat.outerChunk (d : DenseMat α) (i : Nat) : List α :=
  (d.data.drop (i * d.innerLen)).take d.innerLen

/-- One output row of the sparse-dense combine: the dense row is enumerated
(yielding every position) and merge-aligned against the sparse slice; the
merge element chooses the operands of `binop` — a `Left` element carries the
dense value (first argument), a `Right` element the sparse value (second
argument), a `Both` element the dense value first and the sparse value
second.  The output positions are written in sequence (`orow.iter_mut()`
zipped against the merge); positions past the merge keep their old value. -/
def denseRowMerge [Zero α] (f : α → α → α) (orow rrow : List α)
    (lrow : List (Nat × α)) : List α :=
  let merged := nnz_or_zip rrow.enum lrow
  (List.zipWith (fun _ e =>
    match e with
    | NnzEither.Left _ v => f v 0
    | NnzEither.Right _ v => f 0 v
    | NnzEither.Both _ lv rv => f lv rv) orow merged) ++
    orow.drop merged.length

/-- The writing loop of `csmat_binop_dense_same_ordering_raw`: walk the
zipped outer axes of output, sparse operand and dense operand, rewriting
each output chunk through `denseRowMerge`; buffer contents past the walked
chunks are untouched. -/
def writeDense [Zero α] (lhs : CsMat α) (rhs : DenseMat α)
    (f : α → α → α) (out : DenseMat α) : DenseMat α :=
  let n := min (min out.outerCount (lhs.indptr.length - 1)) rhs.outerCount
  { out with data :=
      ((List.range n).map (fun o =>
        denseRowMerge f (out.outerChunk o) (rhs.outerChunk o)
          (lhs.sliceZip o))).flatten ++
      out.data.drop (n * out.innerLen) }

/-- Raw sparse-dense binary operation (binop.rs
`csmat_binop_dense_same_ordering_raw`): shape checks, then the
storage/ordering pairing check (CSR with C/C, CSC with F/F), then the
writing loop.  The Rust function mutates `out` in place and returns `()`;
the model returns the written output. -/
def csmat_binop_dense_same_ordering_raw [Zero α] (lhs : CsMat α)
    (rhs : DenseMat α) (f : α → α → α) (out : DenseMat α) :
    Except SprsError (DenseMat α) :=
  if (lhs.cols != rhs.cols) || (lhs.cols != out.cols) ||
      (lhs.rows != rhs.rows) || (lhs.rows != out.rows) then
    .error .IncompatibleDimensions
  else
    match lhs.storage, rhs.ordering, out.ordering with
    | .CSR, .C, .C => .ok (writeDense lhs rhs f out)
    | .CSC, .F, .F => .ok (writeDense lhs rhs f out)
    | _, _, _ => .error .IncompatibleStorages

/-- Dense zero output allocated by the sparse-dense entry points
(`MatOwned::zeros` / `zeros_f`, chosen by the dense operand's ordering). -/
def denseZeros (α : Type) [Zero α] (rows cols : Nat)
    (ordering : StorageOrder) : DenseMat α :=
  { rows := rows, cols := cols, ordering := ordering,
    data := List.replicate (rows * cols) 0 }

/-- Sparse-dense addition (binop.rs `add_dense_mat_same_ordering`): the
operator is `|x, y| alpha * x + beta * y`, applied by the raw loop with the
dense value as `x` and the sparse value as `y`. -/
def add_dense_mat_same_ordering [Add α] [Mul α] [Zero α] (lhs : CsMat α)
    (rhs : DenseMat α) (alpha beta : α) : Except SprsError (DenseMat α) :=
  csmat_binop_dense_same_ordering_raw lhs rhs
    (fun x y => alpha * x + beta * y)
    (denseZeros α rhs.rows rhs.cols rhs.ordering)

/-- Sparse-dense elementwise product (binop.rs
`mul_dense_mat_same_ordering`): operator `|x, y| alpha * x * y`. -/
def mul_dense_mat_same_ordering [Mul α] [Zero α] (lhs : CsMat α)
    (rhs : DenseMat α) (alpha : α) : Except SprsError (DenseMat α) :=
  csmat_binop_dense_same_ordering_raw lhs rhs (fun x y => alpha * x * y)
    (denseZeros α rhs.rows rhs.cols rhs.ordering)

/-- A 1×1 CSR sparse operand holding the single value 5. -/
def fixtureS : CsMat Int :=
  { storage := .CSR, nrows := 1, ncols := 1, nnz := 1, indptr := [0, 1],
    indices := [0], data := [5] }

/-- A 1×1 row-major dense operand holding the single value 7. -/
def fixtureD : DenseMat Int :=
  { rows := 1, cols := 1, ordering := .C, data := [7] }

/-- C5: the sparse-dense combine applies the coefficients to the wrong
operands.  With the 1×1 sparse matrix [5], the 1×1 dense matrix [7], α = 1
and β = 0, the claimed result α·sparse + β·dense is 5, but the code
computes α·dense + β·sparse and returns 7: `add_dense_mat_same_ordering`
builds `|x, y| α*x + β*y` and the raw loop passes the dense value as `x`
and the sparse value as `y`, contradicting its own documentation ("alpha *
lhs + beta * rhs with lhs a sparse matrix") and the spec. -/
theorem add_dense_swaps_coefficients :
    add_dense_mat_same_ordering fixtureS fixtureD (1 : Int) 0 =
        .ok { rows := 1, cols := 1, ordering := StorageOrder.C,
              data := [7] } ∧
      (7 : Int) ≠ 1 * 5 + 0 * 7 :=
  ⟨by
    simp only [add_dense_mat_same_ordering, csmat_binop_dense_same_ordering_raw,
      writeDense, denseRowMerge, fixtureS, fixtureD, denseZeros,
      DenseMat.outerChunk, DenseMat.innerLen, DenseMat.outerCount,
      CsMat.sliceZip, CsMat.sliceIndices, CsMat.sliceData,
      CsMat.rows, CsMat.cols, List.enum]
    norm_num [List.range_succ, nnz_or_zip], by decide⟩
